import Mathlib

/-!
Verification development for the `redru` embedded key-value store
(`src/db.rs`, `src/hash_index.rs`).

The Rust source is shallowly embedded: `serde_json::Value` becomes the
inductive `Value` (JSON numbers are modelled as integers; floating-point
values are outside the scope of the embedding), the file system becomes an
explicit association list from path strings to file entries carrying a
modification time, and every store / index operation is a pure function
threading that state.  `serde_json` serialization (`to_string_pretty`,
`to_string`, `to_vec`) and parsing (`from_str`) are modelled by an executable
serializer and parser for this `Value` type, `DefaultHasher` is modelled by
SipHash-1-3 with zero keys over the exact byte stream the Rust `Hash`
implementations feed it (little-endian, 64-bit `usize`), and `sha2::Sha256`
is implemented in full.
-/

namespace Redru

/-- Model of `serde_json::Value`.  `num` covers the integer arm of
`serde_json::Number`; floats are outside the model.  Objects keep their
entries as a list of key/value pairs. -/
inductive Value where
  | null
  | bool (b : Bool)
  | num (i : Int)
  | str (s : String)
  | arr (items : List Value)
  | obj (entries : List (String × Value))

/- Structural size measure used for strong induction over `Value`. -/
mutual
def vsize : Value → Nat
  | .null => 1
  | .bool _ => 1
  | .num _ => 1
  | .str _ => 1
  | .arr l => 1 + vsizeL l
  | .obj e => 1 + vsizeO e
def vsizeL : List Value → Nat
  | [] => 0
  | v :: vs => 1 + vsize v + vsizeL vs
def vsizeO : List (String × Value) → Nat
  | [] => 0
  | (_, v) :: es => 1 + vsize v + vsizeO es
end

/-! ### Byte-order comparison of strings

Rust compares `String`s by their UTF-8 bytes; on Unicode scalar values this
agrees with code-point order, which is what the comparison below computes. -/

def charsLe : List Char → List Char → Bool
  | [], _ => true
  | _ :: _, [] => false
  | c :: cs, d :: ds =>
    if c.toNat = d.toNat then charsLe cs ds
    else decide (c.toNat < d.toNat)

def strLe (a b : String) : Bool := charsLe a.data b.data

/-- Stable insertion of an entry into a key-sorted entry list. -/
def insertEntry (x : String × Value) : List (String × Value) → List (String × Value)
  | [] => [x]
  | y :: ys => if strLe x.1 y.1 then x :: y :: ys else y :: insertEntry x ys

/-- Stable sort of object entries by key, modelling `keys.sort()` in
`hash_json_value` and `create_data_hash`. -/
def sortEntries : List (String × Value) → List (String × Value)
  | [] => []
  | x :: xs => insertEntry x (sortEntries xs)

/- Recursively key-sort every object node.  Two value trees are
"structurally identical regardless of object key order" precisely when their
canonical forms coincide. -/
mutual
def canonValue : Value → Value
  | .null => .null
  | .bool b => .bool b
  | .num i => .num i
  | .str s => .str s
  | .arr l => .arr (canonL l)
  | .obj e => .obj (sortEntries (canonO e))
def canonL : List Value → List Value
  | [] => []
  | v :: vs => canonValue v :: canonL vs
def canonO : List (String × Value) → List (String × Value)
  | [] => []
  | (k, v) :: es => (k, canonValue v) :: canonO es
end

/-! ### Decimal rendering of numbers -/

def digitChar (n : Nat) : Char := Char.ofNat (48 + n)

def natToCharsAux : Nat → Nat → List Char → List Char
  | 0, _, acc => acc
  | fuel + 1, n, acc =>
    if n < 10 then digitChar n :: acc
    else natToCharsAux fuel (n / 10) (digitChar (n % 10) :: acc)

def natToChars (n : Nat) : List Char := natToCharsAux (n + 1) n []

def natToString (n : Nat) : String := ⟨natToChars n⟩

def intToChars (i : Int) : List Char :=
  if i < 0 then '-' :: natToChars (-i).toNat else natToChars i.toNat

/-! ### String escaping (as in `serde_json`'s serializer) -/

def lbrace : Char := Char.ofNat 123
def rbrace : Char := Char.ofNat 125

def hexDigitChar (n : Nat) : Char :=
  if n < 10 then Char.ofNat (48 + n) else Char.ofNat (87 + n)

def escChar (c : Char) : List Char :=
  if c = '"' then ['\\', '"']
  else if c = '\\' then ['\\', '\\']
  else if c = Char.ofNat 8 then ['\\', 'b']
  else if c = Char.ofNat 9 then ['\\', 't']
  else if c = Char.ofNat 10 then ['\\', 'n']
  else if c = Char.ofNat 12 then ['\\', 'f']
  else if c = Char.ofNat 13 then ['\\', 'r']
  else if c.toNat < 32 then
    ['\\', 'u', '0', '0', hexDigitChar (c.toNat / 16), hexDigitChar (c.toNat % 16)]
  else [c]

def escBody (cs : List Char) : List Char := (cs.map escChar).flatten

def quoteChars (s : String) : List Char := '"' :: escBody s.data ++ ['"']

/-! ### Pretty serializer (`serde_json::to_string_pretty`, two-space indent) -/

def nlIndent (k : Nat) : List Char := '\n' :: List.replicate (2 * k) ' '

mutual
def serValue : Nat → Value → List Char
  | _, .num i => intToChars i
  | _, .str s => quoteChars s
  | _, .bool false => ['f', 'a', 'l', 's', 'e']
  | _, .bool true => ['t', 'r', 'u', 'e']
  | _, .null => ['n', 'u', 'l', 'l']
  | _, .arr [] => ['[', ']']
  | k, .arr (v :: vs) =>
    '[' :: (nlIndent (k + 1) ++ serValue (k + 1) v ++ serArrRest (k + 1) vs) ++
      nlIndent k ++ [']']
  | _, .obj [] => [lbrace, rbrace]
  | k, .obj (e :: es) =>
    lbrace :: (nlIndent (k + 1) ++ serEntry (k + 1) e ++ serObjRest (k + 1) es) ++
      nlIndent k ++ [rbrace]
def serEntry : Nat → String × Value → List Char
  | k, (key, v) => quoteChars key ++ ':' :: ' ' :: serValue k v
def serArrRest : Nat → List Value → List Char
  | _, [] => []
  | k, v :: vs => ',' :: (nlIndent k ++ serValue k v ++ serArrRest k vs)
def serObjRest : Nat → List (String × Value) → List Char
  | _, [] => []
  | k, e :: es => ',' :: (nlIndent k ++ serEntry k e ++ serObjRest k es)
end

/-- `serde_json::to_string_pretty(&self.storage)`: the full mapping rendered
as one JSON object. -/
def serializeMap (m : List (String × Value)) : List Char := serValue 0 (.obj m)

/-! ### Compact serializer (`serde_json::to_string` / `to_vec`) -/

mutual
def serValueC : Value → List Char
  | .num i => intToChars i
  | .str s => quoteChars s
  | .bool false => ['f', 'a', 'l', 's', 'e']
  | .bool true => ['t', 'r', 'u', 'e']
  | .null => ['n', 'u', 'l', 'l']
  | .arr [] => ['[', ']']
  | .arr (v :: vs) => '[' :: (serValueC v ++ serArrRestC vs) ++ [']']
  | .obj [] => [lbrace, rbrace]
  | .obj (e :: es) => lbrace :: (serEntryC e ++ serObjRestC es) ++ [rbrace]
def serEntryC : String × Value → List Char
  | (key, v) => quoteChars key ++ ':' :: serValueC v
def serArrRestC : List Value → List Char
  | [] => []
  | v :: vs => ',' :: (serValueC v ++ serArrRestC vs)
def serObjRestC : List (String × Value) → List Char
  | [] => []
  | e :: es => ',' :: (serEntryC e ++ serObjRestC es)
end

/-! ### JSON parsing (`serde_json::from_str`)

A deterministic recursive-descent parse of the JSON grammar, with the same
acceptance rules as `serde_json` on the fragment the embedding covers:
JSON whitespace, objects, arrays, escaped strings (including `\uXXXX` and
surrogate pairs), `null` / `true` / `false`, and integers without leading
zeros.  Floating-point literals are outside the model and are rejected.
The `fuel` argument only forces termination; `parseJson` supplies enough
fuel for any input. -/

def isWsChar (c : Char) : Bool := c = ' ' || c = '\t' || c = '\n' || c = '\r'

def skipWs : List Char → List Char
  | [] => []
  | c :: cs => if isWsChar c then skipWs cs else c :: cs

def isDigitChar (c : Char) : Bool := 48 ≤ c.toNat && c.toNat ≤ 57

def digitsToNat (ds : List Char) : Nat :=
  ds.foldl (fun a c => a * 10 + (c.toNat - 48)) 0

def parseNatDigits (cs : List Char) : Option (Nat × List Char) :=
  let ds := cs.takeWhile isDigitChar
  if ds.isEmpty then none
  else if ds.head? = some '0' ∧ 1 < ds.length then none
  else some (digitsToNat ds, cs.drop ds.length)

def parseNumFrom (cs : List Char) : Option (Value × List Char) :=
  match cs with
  | [] => none
  | c :: rest =>
    if c = '-' then
      match parseNatDigits rest with
      | some (n, rest2) => some (.num (-(n : Int)), rest2)
      | none => none
    else
      match parseNatDigits (c :: rest) with
      | some (n, rest2) => some (.num (n : Int), rest2)
      | none => none

def hexVal (c : Char) : Option Nat :=
  if 48 ≤ c.toNat ∧ c.toNat ≤ 57 then some (c.toNat - 48)
  else if 97 ≤ c.toNat ∧ c.toNat ≤ 102 then some (c.toNat - 87)
  else if 65 ≤ c.toNat ∧ c.toNat ≤ 70 then some (c.toNat - 55)
  else none

def hex4 (a b c d : Char) : Option Nat :=
  match hexVal a, hexVal b, hexVal c, hexVal d with
  | some x, some y, some z, some w => some (((x * 16 + y) * 16 + z) * 16 + w)
  | _, _, _, _ => none

def strCons (c : Char) : Option (List Char × List Char) → Option (List Char × List Char)
  | some (s, rest) => some (c :: s, rest)
  | none => none

def parseStrBody : Nat → List Char → Option (List Char × List Char)
  | 0, _ => none
  | fuel + 1, cs =>
    match cs with
    | [] => none
    | c :: rest =>
      if c = '"' then some ([], rest)
      else if c = '\\' then
        match rest with
        | [] => none
        | e :: rest2 =>
          if e = '"' then strCons '"' (parseStrBody fuel rest2)
          else if e = '\\' then strCons '\\' (parseStrBody fuel rest2)
          else if e = '/' then strCons '/' (parseStrBody fuel rest2)
          else if e = 'b' then strCons (Char.ofNat 8) (parseStrBody fuel rest2)
          else if e = 'f' then strCons (Char.ofNat 12) (parseStrBody fuel rest2)
          else if e = 'n' then strCons (Char.ofNat 10) (parseStrBody fuel rest2)
          else if e = 'r' then strCons (Char.ofNat 13) (parseStrBody fuel rest2)
          else if e = 't' then strCons (Char.ofNat 9) (parseStrBody fuel rest2)
          else if e = 'u' then
            match rest2 with
            | h1 :: h2 :: h3 :: h4 :: rest3 =>
              match hex4 h1 h2 h3 h4 with
              | none => none
              | some n =>
                if n < 55296 ∨ 57343 < n then
                  strCons (Char.ofNat n) (parseStrBody fuel rest3)
                else if n ≤ 56319 then
                  match rest3 with
                  | '\\' :: 'u' :: g1 :: g2 :: g3 :: g4 :: rest4 =>
                    match hex4 g1 g2 g3 g4 with
                    | some m =>
                      if 56320 ≤ m ∧ m ≤ 57343 then
                        strCons (Char.ofNat (65536 + (n - 55296) * 1024 + (m - 56320)))
                          (parseStrBody fuel rest4)
                      else none
                    | none => none
                  | _ => none
                else none
            | _ => none
          else none
      else if c.toNat < 32 then none
      else strCons c (parseStrBody fuel rest)

def expectChars : List Char → List Char → Option (List Char)
  | [], rest => some rest
  | e :: es, c :: rest => if c = e then expectChars es rest else none
  | _ :: _, [] => none

def objResult : Option (List (String × Value) × List Char) → Option (Value × List Char)
  | some (e, rest) => some (.obj e, rest)
  | none => none

def arrResult : Option (List Value × List Char) → Option (Value × List Char)
  | some (l, rest) => some (.arr l, rest)
  | none => none

mutual
def parseValue : Nat → List Char → Option (Value × List Char)
  | 0, _ => none
  | fuel + 1, cs =>
    match skipWs cs with
    | [] => none
    | c :: rest =>
      if c = lbrace then
        match skipWs rest with
        | [] => none
        | d :: rest2 =>
          if d = rbrace then some (.obj [], rest2)
          else objResult (parseObjItems fuel (d :: rest2) [])
      else if c = '[' then
        match skipWs rest with
        | [] => none
        | d :: rest2 =>
          if d = ']' then some (.arr [], rest2)
          else arrResult (parseArrItems fuel (d :: rest2) [])
      else if c = '"' then
        match parseStrBody fuel rest with
        | some (s, rest2) => some (.str ⟨s⟩, rest2)
        | none => none
      else if c = 'n' then
        match expectChars ['u', 'l', 'l'] rest with
        | some rest2 => some (.null, rest2)
        | none => none
      else if c = 't' then
        match expectChars ['r', 'u', 'e'] rest with
        | some rest2 => some (.bool true, rest2)
        | none => none
      else if c = 'f' then
        match expectChars ['a', 'l', 's', 'e'] rest with
        | some rest2 => some (.bool false, rest2)
        | none => none
      else parseNumFrom (c :: rest)
def parseObjItems : Nat → List Char → List (String × Value) →
    Option (List (String × Value) × List Char)
  | 0, _, _ => none
  | fuel + 1, cs, acc =>
    match cs with
    | [] => none
    | c :: rest =>
      if c = '"' then
        match parseStrBody fuel rest with
        | some (k, rest2) =>
          match skipWs rest2 with
          | ':' :: rest3 =>
            match parseValue fuel rest3 with
            | some (v, rest4) =>
              match skipWs rest4 with
              | [] => none
              | d :: rest5 =>
                if d = ',' then parseObjItems fuel (skipWs rest5) (acc ++ [(⟨k⟩, v)])
                else if d = rbrace then some (acc ++ [(⟨k⟩, v)], rest5)
                else none
            | none => none
          | _ => none
        | none => none
      else none
def parseArrItems : Nat → List Char → List Value → Option (List Value × List Char)
  | 0, _, _ => none
  | fuel + 1, cs, acc =>
    match parseValue fuel cs with
    | some (v, rest) =>
      match skipWs rest with
      | ',' :: rest2 => parseArrItems fuel rest2 (acc ++ [v])
      | ']' :: rest2 => some (acc ++ [v], rest2)
      | _ => none
    | none => none
end

/-- Parse a complete JSON document (value plus trailing whitespace only). -/
def parseJson (cs : List Char) : Option Value :=
  match parseValue (2 * cs.length + 2) cs with
  | some (v, rest) => if skipWs rest = [] then some v else none
  | none => none

/-- `serde_json::from_str::<HashMap<String, Value>>`: the document must be a
JSON object of key/value pairs. -/
def parseJsonObject (cs : List Char) : Option (List (String × Value)) :=
  match parseJson cs with
  | some (.obj e) => some e
  | _ => none

/-! ### UTF-8 encoding -/

def utf8Char (c : Char) : List Nat :=
  let n := c.toNat
  if n < 128 then [n]
  else if n < 2048 then [192 + n / 64, 128 + n % 64]
  else if n < 65536 then [224 + n / 4096, 128 + n / 64 % 64, 128 + n % 64]
  else [240 + n / 262144, 128 + n / 4096 % 64, 128 + n / 64 % 64, 128 + n % 64]

def utf8Chars (cs : List Char) : List Nat := (cs.map utf8Char).flatten

def utf8Str (s : String) : List Nat := utf8Chars s.data

/-! ### SipHash-1-3: `std::collections::hash_map::DefaultHasher`

`DefaultHasher::new()` is SipHash-1-3 with both keys zero.  The Rust `Hash`
implementations used by `hash_json_value` feed it, per call:
`u8` as one byte, `bool` as one byte, `i64`/`u64`/`usize` as eight
native-endian bytes (little-endian here, matching the usual platforms), and
`str` as its UTF-8 bytes followed by the `0xff` terminator byte. -/

def mask64 (n : Nat) : Nat := n % 18446744073709551616

def rotl64 (x n : Nat) : Nat := mask64 ((x <<< n) ||| (x >>> (64 - n)))

def sipRound : Nat × Nat × Nat × Nat → Nat × Nat × Nat × Nat
  | (v0, v1, v2, v3) =>
    let v0 := mask64 (v0 + v1)
    let v1 := rotl64 v1 13
    let v1 := v1 ^^^ v0
    let v0 := rotl64 v0 32
    let v2 := mask64 (v2 + v3)
    let v3 := rotl64 v3 16
    let v3 := v3 ^^^ v2
    let v0 := mask64 (v0 + v3)
    let v3 := rotl64 v3 21
    let v3 := v3 ^^^ v0
    let v2 := mask64 (v2 + v1)
    let v1 := rotl64 v1 17
    let v1 := v1 ^^^ v2
    let v2 := rotl64 v2 32
    (v0, v1, v2, v3)

/-- Little-endian value of a byte list (first byte least significant). -/
def leVal (bytes : List Nat) : Nat := bytes.foldr (fun b acc => b + 256 * acc) 0

/-- Process all complete 8-byte words; return the state and the leftover. -/
def sipBlocks : Nat × Nat × Nat × Nat → List Nat → (Nat × Nat × Nat × Nat) × List Nat
  | st, b0 :: b1 :: b2 :: b3 :: b4 :: b5 :: b6 :: b7 :: rest =>
    let m := leVal [b0, b1, b2, b3, b4, b5, b6, b7]
    let (v0, v1, v2, v3) := st
    let (w0, w1, w2, w3) := sipRound (v0, v1, v2, v3 ^^^ m)
    sipBlocks (w0 ^^^ m, w1, w2, w3) rest
  | st, rest => (st, rest)

def siphash13 (bytes : List Nat) : Nat :=
  let v0 := 8317987319222330741
  let v1 := 7237128888997146477
  let v2 := 7816392313619706465
  let v3 := 8387220255154660723
  let (st, leftover) := sipBlocks (v0, v1, v2, v3) bytes
  let b := mask64 ((bytes.length % 256) <<< 56 + leVal leftover)
  let (u0, u1, u2, u3) := st
  let (t0, t1, t2, t3) := sipRound (u0, u1, u2, u3 ^^^ b)
  let (f0, f1, f2, f3) := (t0 ^^^ b, t1, t2 ^^^ 255, t3)
  let (g0, g1, g2, g3) := sipRound (sipRound (sipRound (f0, f1, f2, f3)))
  g0 ^^^ g1 ^^^ g2 ^^^ g3

/-- Eight little-endian bytes of a 64-bit value. -/
def leBytes64 (n : Nat) : List Nat :=
  [n % 256, n / 256 % 256, n / 65536 % 256, n / 16777216 % 256,
   n / 4294967296 % 256, n / 1099511627776 % 256,
   n / 281474976710656 % 256, n / 72057594037927936 % 256]

/-- Two's-complement 64-bit image of an `i64`. -/
def i64Bits (i : Int) : Nat := (Int.emod i 18446744073709551616).toNat

/- The byte stream `hash_json_value` feeds the hasher, before key sorting:
a `u8` type tag per node, then booleans as one byte, numbers as their 64-bit
pattern, strings as UTF-8 plus `0xff`, arrays as their length then their
elements in order, objects as their length then their entries in list order
(key bytes plus `0xff`, then the value's stream). -/
mutual
def rawBytes : Value → List Nat
  | .null => [0]
  | .bool b => [1, if b then 1 else 0]
  | .num i => 2 :: leBytes64 (i64Bits i)
  | .str s => 3 :: (utf8Str s ++ [255])
  | .arr l => 4 :: (leBytes64 l.length ++ rawBytesL l)
  | .obj e => 5 :: (leBytes64 e.length ++ rawBytesO e)
def rawBytesL : List Value → List Nat
  | [] => []
  | v :: vs => rawBytes v ++ rawBytesL vs
def rawBytesO : List (String × Value) → List Nat
  | [] => []
  | (k, v) :: es => utf8Str k ++ [255] ++ rawBytes v ++ rawBytesO es
end

/-- The stream of `hash_json_value`, which sorts every object node's keys
before hashing its entries: `canonValue` performs exactly that recursive
per-node key sort (sorting never touches the keys themselves, so sorting
each node on the way in, as the Rust code does, and sorting the whole tree
first, as here, produce the same byte stream). -/
def hashBytes (v : Value) : List Nat := rawBytes (canonValue v)

/-- `hash_value` of `src/hash_index.rs`: the 64-bit structural hash. -/
def hash_value (v : Value) : Nat := siphash13 (hashBytes v)

/-! ### SHA-256 (`sha2::Sha256`) -/

def mask32 (n : Nat) : Nat := n % 4294967296

def rotr32 (x n : Nat) : Nat := mask32 ((x >>> n) ||| (x <<< (32 - n)))

def sha256K : List Nat :=
  [1116352408, 1899447441, 3049323471, 3921009573, 961987163, 1508970993,
   2453635748, 2870763221, 3624381080, 310598401, 607225278, 1426881987,
   1925078388, 2162078206, 2614888103, 3248222580, 3835390401, 4022224774,
   264347078, 604807628, 770255983, 1249150122, 1555081692, 1996064986,
   2554220882, 2821834349, 2952996808, 3210313671, 3336571891, 3584528711,
   113926993, 338241895, 666307205, 773529912, 1294757372, 1396182291,
   1695183700, 1986661051, 2177026350, 2456956037, 2730485921, 2820302411,
   3259730800, 3345764771, 3516065817, 3600352804, 4094571909, 275423344,
   430227734, 506948616, 659060556, 883997877, 958139571, 1322822218,
   1537002063, 1747873779, 1955562222, 2024104815, 2227730452, 2361852424,
   2428436474, 2756734187, 3204031479, 3329325298]

/-- Eight big-endian bytes of the bit-length. -/
def beBytes64 (n : Nat) : List Nat :=
  [n / 72057594037927936 % 256, n / 281474976710656 % 256,
   n / 1099511627776 % 256, n / 4294967296 % 256,
   n / 16777216 % 256, n / 65536 % 256, n / 256 % 256, n % 256]

def sha256pad (msg : List Nat) : List Nat :=
  msg ++ 128 :: List.replicate ((64 + 55 - msg.length % 64) % 64) 0 ++
    beBytes64 (8 * msg.length)

/-- Split into 32-bit big-endian words. -/
def beWords : List Nat → List Nat
  | b0 :: b1 :: b2 :: b3 :: rest =>
    (((b0 * 256 + b1) * 256 + b2) * 256 + b3) :: beWords rest
  | _ => []

def smallSigma0 (x : Nat) : Nat := rotr32 x 7 ^^^ rotr32 x 18 ^^^ (x >>> 3)
def smallSigma1 (x : Nat) : Nat := rotr32 x 17 ^^^ rotr32 x 19 ^^^ (x >>> 10)
def bigSigma0 (x : Nat) : Nat := rotr32 x 2 ^^^ rotr32 x 13 ^^^ rotr32 x 22
def bigSigma1 (x : Nat) : Nat := rotr32 x 6 ^^^ rotr32 x 11 ^^^ rotr32 x 25

/-- Extend the 16 block words to 64 schedule words (`fuel` runs 48 times). -/
def sha256extend : Nat → List Nat → List Nat
  | 0, w => w
  | fuel + 1, w =>
    let i := w.length
    let nw := mask32 (smallSigma1 (w.getD (i - 2) 0) + w.getD (i - 7) 0 +
      smallSigma0 (w.getD (i - 15) 0) + w.getD (i - 16) 0)
    sha256extend fuel (w ++ [nw])

def sha256round (st : Nat × Nat × Nat × Nat × Nat × Nat × Nat × Nat) (kw : Nat × Nat) :
    Nat × Nat × Nat × Nat × Nat × Nat × Nat × Nat :=
  let (a, b, c, d, e, f, g, h) := st
  let (kk, ww) := kw
  let t1 := mask32 (h + bigSigma1 e + ((e &&& f) ^^^ ((4294967295 - e) &&& g)) + kk + ww)
  let t2 := mask32 (bigSigma0 a + ((a &&& b) ^^^ (a &&& c) ^^^ (b &&& c)))
  (mask32 (t1 + t2), a, b, c, mask32 (d + t1), e, f, g)

def sha256block (h : List Nat) (block : List Nat) : List Nat :=
  let w := sha256extend 48 (beWords block)
  let init := (h.getD 0 0, h.getD 1 0, h.getD 2 0, h.getD 3 0,
    h.getD 4 0, h.getD 5 0, h.getD 6 0, h.getD 7 0)
  let (a, b, c, d, e, f, g, hh) := (sha256K.zip w).foldl sha256round init
  [mask32 (h.getD 0 0 + a), mask32 (h.getD 1 0 + b), mask32 (h.getD 2 0 + c),
   mask32 (h.getD 3 0 + d), mask32 (h.getD 4 0 + e), mask32 (h.getD 5 0 + f),
   mask32 (h.getD 6 0 + g), mask32 (h.getD 7 0 + hh)]

def sha256blocks : Nat → List Nat → List Nat → List Nat
  | 0, h, _ => h
  | fuel + 1, h, bytes =>
    match bytes with
    | [] => h
    | _ => sha256blocks fuel (sha256block h (bytes.take 64)) (bytes.drop 64)

def sha256words (msg : List Nat) : List Nat :=
  let padded := sha256pad msg
  sha256blocks (padded.length / 64)
    [1779033703, 3144134277, 1013904242, 2773480762,
     1359893119, 2600822924, 528734635, 1541459225] padded

/-- Lowercase-hex rendering of one byte. -/
def byteHex (b : Nat) : List Char := [hexDigitChar (b / 16), hexDigitChar (b % 16)]

/-- Lowercase-hex rendering of a 32-bit word (big-endian bytes). -/
def wordHex (w : Nat) : List Char :=
  byteHex (w / 16777216 % 256) ++ byteHex (w / 65536 % 256) ++
    byteHex (w / 256 % 256) ++ byteHex (w % 256)

/-- SHA-256 of a byte sequence, as the usual 64-character lowercase hex
string (the `format!("\x7b:x\x7d", hasher.finalize())` rendering). -/
def sha256hex (msg : List Nat) : String :=
  ⟨((sha256words msg).map wordHex).flatten⟩

/-- `calculate_sha256` of `src/hash_index.rs`. -/
def calculate_sha256 (data : String) : String := sha256hex (utf8Str data)

/-- `HashIndex::create_data_hash`: SHA-256 over the key-sorted entries,
each contributing the key's UTF-8 bytes followed by the value's compact
`serde_json` byte serialization. -/
def create_data_hash (data : List (String × Value)) : String :=
  sha256hex (((sortEntries data).map
    (fun kv => utf8Str kv.1 ++ utf8Chars (serValueC kv.2))).flatten)

/-! ### Path manipulation (`std::path::Path`)

Paths are plain strings.  `dirOf` / `fileNameOf` split at the last `/`
(mirroring `Path::parent` / `file_name` for the relative paths the store
uses), `stemOf` mirrors `file_stem`, and `with_extension` mirrors
`Path::with_extension`. -/

def breakLastRev (sep : Char) (cs : List Char) : Option (List Char × List Char) :=
  let r := cs.reverse
  let afterRev := r.takeWhile (fun c => c != sep)
  if afterRev.length = r.length then none
  else some ((r.drop (afterRev.length + 1)).reverse, afterRev.reverse)

def fileNameOf (p : String) : String :=
  match breakLastRev '/' p.data with
  | none => p
  | some (_, a) => ⟨a⟩

def dirOf (p : String) : String :=
  match breakLastRev '/' p.data with
  | none => ""
  | some (b, _) => ⟨b⟩

/-- `file_stem`: the file name up to its last `.`, the whole name when there
is no `.` or when everything precedes it (dot-files). -/
def stemOf (p : String) : String :=
  let name := (fileNameOf p).data
  match breakLastRev '.' name with
  | none => ⟨name⟩
  | some (before, _) => if before.isEmpty then ⟨name⟩ else ⟨before⟩

def with_extension (p e : String) : String :=
  let d := dirOf p
  (if d = "" then "" else d ++ "/") ++ stemOf p ++ (if e = "" then "" else "." ++ e)

/-! ### The file system and world state -/

inductive IoError where
  | notFound
  | invalidData
  | renameFailed
deriving DecidableEq

structure FileEntry where
  content : List Char
  mtime : Nat

structure FS where
  files : List (String × FileEntry)

/-- The ambient state: a file system plus the current clock
(`SystemTime::now` in whole unix seconds, used for backup names and
modification times). -/
structure World where
  fs : FS
  now : Nat

def fsLookupAux : List (String × FileEntry) → String → Option FileEntry
  | [], _ => none
  | (q, e) :: rest, p => if q = p then some e else fsLookupAux rest p

def fsLookup (fs : FS) (p : String) : Option FileEntry := fsLookupAux fs.files p

def fsSetAux (p : String) (e : FileEntry) : List (String × FileEntry) →
    List (String × FileEntry)
  | [] => [(p, e)]
  | (q, e') :: rest => if q = p then (p, e) :: rest else (q, e') :: fsSetAux p e rest

def fsSet (fs : FS) (p : String) (e : FileEntry) : FS := ⟨fsSetAux p e fs.files⟩

def fsRemoveAux (p : String) : List (String × FileEntry) → List (String × FileEntry)
  | [] => []
  | (q, e') :: rest => if q = p then rest else (q, e') :: fsRemoveAux p rest

def fsRemove (fs : FS) (p : String) : FS := ⟨fsRemoveAux p fs.files⟩

/-- `fs::rename`: the target is replaced, the entry (with its metadata)
moves. -/
def fsRename (fs : FS) (src dst : String) : FS :=
  match fsLookup fs src with
  | none => fs
  | some e => fsSet (fsRemove fs src) dst e

def wWrite (w : World) (p : String) (c : List Char) : World :=
  { w with fs := fsSet w.fs p ⟨c, w.now⟩ }

def wRemove (w : World) (p : String) : World := { w with fs := fsRemove w.fs p }

def wRename (w : World) (src dst : String) : World := { w with fs := fsRename w.fs src dst }

/-- Directory a stored path belongs to, with `.` for bare file names. -/
def entryDir (p : String) : String := if dirOf p = "" then "." else dirOf p

def joinPath (dir name : String) : String :=
  if dir = "." then name else dir ++ "/" ++ name

/-- `fs::read_dir`: the file names in a directory, in storage order. -/
def readDir (fs : FS) (dir : String) : Except IoError (List String) :=
  if dir = "" then .error .notFound
  else .ok (fs.files.filterMap
    (fun kv => if entryDir kv.1 = dir then some (fileNameOf kv.1) else none))

/-! ### Reading a file line by line

`load_from_file` reads with `BufReader::lines`, pushing each line plus a
`'\n'`; `rustLinesJoin` reproduces the string that loop builds. -/

def splitOnChar (sep : Char) : List Char → List (List Char)
  | [] => [[]]
  | c :: cs =>
    if c = sep then [] :: splitOnChar sep cs
    else
      match splitOnChar sep cs with
      | l :: ls => (c :: l) :: ls
      | [] => [[c]]

def stripCr (l : List Char) : List Char :=
  match l.getLast? with
  | some c => if c = '\r' then l.dropLast else l
  | none => l

def rustLines (cs : List Char) : List (List Char) :=
  let parts := splitOnChar '\n' cs
  let parts := if parts.getLast? = some [] then parts.dropLast else parts
  parts.map stripCr

def rustLinesJoin (cs : List Char) : List Char :=
  ((rustLines cs).map (fun l => l ++ ['\n'])).flatten

/-- `str::trim`, restricted to the ASCII whitespace the store's files
contain. -/
def trimChars (cs : List Char) : List Char :=
  ((cs.dropWhile isWsChar).reverse.dropWhile isWsChar).reverse

/-! ### The store: `InMemoryDB` (`src/db.rs`) -/

structure InMemoryDB where
  storage : List (String × Value)
  persistence_file : Option String
  auto_save : Bool
  backup_enabled : Bool

/-- `InMemoryDB::new`. -/
def newInMemoryDB : InMemoryDB := ⟨[], none, true, false⟩

def storageLookup : List (String × Value) → String → Option Value
  | [], _ => none
  | (k', v') :: rest, k => if k' = k then some v' else storageLookup rest k

/-- `HashMap::insert`: overwrite in place or append. -/
def storageInsert : List (String × Value) → String → Value → List (String × Value)
  | [], k, v => [(k, v)]
  | (k', v') :: rest, k, v =>
    if k' = k then (k, v) :: rest else (k', v') :: storageInsert rest k v

def storageRemove : List (String × Value) → String → List (String × Value)
  | [], _ => []
  | (k', v') :: rest, k => if k' = k then rest else (k', v') :: storageRemove rest k

def containsKey (st : List (String × Value)) (k : String) : Bool :=
  (storageLookup st k).isSome

/-- `InMemoryDB::create_backup`: when backups are enabled and the file
exists, copy it to the `<stem>.backup.<unix-seconds>` sibling. -/
def create_backup (db : InMemoryDB) (path : String) (w : World) : World :=
  if db.backup_enabled = false then w
  else
    match fsLookup w.fs path with
    | none => w
    | some e => wWrite w (with_extension path ("backup." ++ natToString w.now)) e.content

/-- First stage of `save_to_file`: the backup copy. -/
def save_stage_backup (db : InMemoryDB) (path : String) (w : World) : World :=
  create_backup db path w

/-- Second stage of `save_to_file`: create the `.tmp` sibling, write the
full serialization into it and flush it. -/
def save_stage_temp (db : InMemoryDB) (path : String) (w : World) : World :=
  wWrite (save_stage_backup db path w) (with_extension path "tmp") (serializeMap db.storage)

/-- `InMemoryDB::save_to_file`.  `renameOk` injects the outcome of the
`fs::rename` call: on failure the temporary file is removed and the error
is surfaced. -/
def save_to_file (db : InMemoryDB) (renameOk : Bool) (w : World) :
    World × Except IoError Unit :=
  match db.persistence_file with
  | none => (w, .ok ())
  | some path =>
    let w2 := save_stage_temp db path w
    let tmp := with_extension path "tmp"
    if renameOk then (wRename w2 tmp path, .ok ())
    else (wRemove w2 tmp, .error .renameFailed)

/-- `InMemoryDB::insert`. -/
def insert (db : InMemoryDB) (key : String) (v : Value) (renameOk : Bool) (w : World) :
    InMemoryDB × World × Except IoError Unit :=
  let db' := { db with storage := storageInsert db.storage key v }
  if db.auto_save && db.persistence_file.isSome then
    let (w', r) := save_to_file db' renameOk w
    (db', w', r)
  else (db', w, .ok ())

/-- `InMemoryDB::get`. -/
def get (db : InMemoryDB) (key : String) : Option Value := storageLookup db.storage key

/-- `InMemoryDB::delete`. -/
def delete (db : InMemoryDB) (key : String) (renameOk : Bool) (w : World) :
    InMemoryDB × World × Except IoError Unit :=
  let db' := { db with storage := storageRemove db.storage key }
  if db.auto_save && db.persistence_file.isSome then
    let (w', r) := save_to_file db' renameOk w
    (db', w', r)
  else (db', w, .ok ())

/-- `InMemoryDB::update`: mutate only when the key exists, report whether it
did. -/
def update (db : InMemoryDB) (key : String) (v : Value) (renameOk : Bool) (w : World) :
    InMemoryDB × World × Except IoError Bool :=
  if containsKey db.storage key then
    let db' := { db with storage := storageInsert db.storage key v }
    if db.auto_save && db.persistence_file.isSome then
      let (w', r) := save_to_file db' renameOk w
      (db', w', r.map (fun _ => true))
    else (db', w, .ok true)
  else (db, w, .ok false)

/-- `InMemoryDB::clear`. -/
def clear (db : InMemoryDB) (renameOk : Bool) (w : World) :
    InMemoryDB × World × Except IoError Unit :=
  let db' := { db with storage := [] }
  if db.auto_save && db.persistence_file.isSome then
    let (w', r) := save_to_file db' renameOk w
    (db', w', r)
  else (db', w, .ok ())

/-- `InMemoryDB::load_from_file`: a missing file leaves the store as it is,
an empty or whitespace-only file empties it, anything else must parse as a
JSON object of key/value pairs. -/
def load_from_file (db : InMemoryDB) (fs : FS) : Except IoError InMemoryDB :=
  match db.persistence_file with
  | none => .ok db
  | some path =>
    match fsLookup fs path with
    | none => .ok db
    | some e =>
      let content := rustLinesJoin e.content
      if trimChars content = [] then .ok { db with storage := [] }
      else
        match parseJsonObject content with
        | some data => .ok { db with storage := data }
        | none => .error .invalidData

/-- `InMemoryDB::save`. -/
def save (db : InMemoryDB) (renameOk : Bool) (w : World) : World × Except IoError Unit :=
  save_to_file db renameOk w

/-- `InMemoryDB::reload`. -/
def reload (db : InMemoryDB) (fs : FS) : Except IoError InMemoryDB :=
  load_from_file db fs

/-! ### Repair (`InMemoryDB::repair_file`) -/

def mtimeKey (fs : FS) (dir n : String) : Nat :=
  match fsLookup fs (joinPath dir n) with
  | some e => e.mtime
  | none => 0

def insertByMtime (fs : FS) (dir x : String) : List String → List String
  | [] => [x]
  | y :: ys =>
    if mtimeKey fs dir x ≤ mtimeKey fs dir y then x :: y :: ys
    else y :: insertByMtime fs dir x ys

/-- Stable ascending sort by modification time (`sort_by_key`). -/
def sortByMtime (fs : FS) (dir : String) : List String → List String
  | [] => []
  | x :: xs => insertByMtime fs dir x (sortByMtime fs dir xs)

def repairLoop (db : InMemoryDB) (w : World) (dir : String) :
    List String → InMemoryDB × World × Except IoError Unit
  | [] =>
    let db' := { db with storage := [] }
    let (w', r) := save_to_file db' true w
    (db', w', r)
  | n :: rest =>
    match fsLookup w.fs (joinPath dir n) with
    | none => repairLoop db w dir rest
    | some e =>
      match parseJsonObject e.content with
      | some data =>
        let db' := { db with storage := data }
        let (w', r) := save_to_file db' true w
        (db', w', r)
      | none => repairLoop db w dir rest

/-- `InMemoryDB::repair_file`: scan the persistence file's directory for
names starting with `<stem>.backup.`, newest first, adopt the first whose
contents parse as a JSON object, save it; fall back to an empty store. -/
def repair_file (db : InMemoryDB) (w : World) : InMemoryDB × World × Except IoError Unit :=
  match db.persistence_file with
  | none => (db, w, .ok ())
  | some path =>
    let parent := if path = "" then "." else dirOf path
    match readDir w.fs parent with
    | .error e => (db, w, .error e)
    | .ok names =>
      let pref := stemOf path ++ ".backup."
      let cands := names.filter (fun n => pref.data.isPrefixOf n.data)
      let sorted := (sortByMtime w.fs parent cands).reverse
      repairLoop db w parent sorted

/-- Specification-side reading of the adoption loop of `repair_file` (the
spec's §4.1 step 3, minus the integrity check and index rebuild the code
does not perform): the first candidate, in the order given, whose bytes
parse as a JSON object, together with its parsed content. -/
def firstParsedBackup (w : World) (dir : String) :
    List String → Option (String × List (String × Value))
  | [] => none
  | n :: rest =>
    match fsLookup w.fs (joinPath dir n) with
    | none => firstParsedBackup w dir rest
    | some e =>
      match parseJsonObject e.content with
      | some data => some (n, data)
      | none => firstParsedBackup w dir rest

/-! ### The index: `HashIndex` (`src/hash_index.rs`) -/

def index_dir : String := "Indefx"
def hash_dir : String := "hashes"

structure HashIndex where
  indexes : List (String × List (Nat × List String))

/-- `HashIndex::new` (directory creation is not modelled). -/
def newHashIndex : HashIndex := ⟨[]⟩

def idxLookup : List (String × List (Nat × List String)) → String →
    Option (List (Nat × List String))
  | [], _ => none
  | (n', b) :: rest, n => if n' = n then some b else idxLookup rest n

def idxSet : List (String × List (Nat × List String)) → String →
    List (Nat × List String) → List (String × List (Nat × List String))
  | [], n, b => [(n, b)]
  | (n', b') :: rest, n, b =>
    if n' = n then (n, b) :: rest else (n', b') :: idxSet rest n b

def bucketLookup : List (Nat × List String) → Nat → Option (List String)
  | [], _ => none
  | (h', ks) :: rest, h => if h' = h then some ks else bucketLookup rest h

def bucketSet : List (Nat × List String) → Nat → List String → List (Nat × List String)
  | [], h, ks => [(h, ks)]
  | (h', ks') :: rest, h, ks =>
    if h' = h then (h, ks) :: rest else (h', ks') :: bucketSet rest h ks

def bucketRemove : List (Nat × List String) → Nat → List (Nat × List String)
  | [], _ => []
  | (h', ks') :: rest, h => if h' = h then rest else (h', ks') :: bucketRemove rest h

/-- `serde_json` serialization of a bucket map: one JSON object whose keys
are the hashes rendered in decimal. -/
def bucketsToValue (index : List (Nat × List String)) : Value :=
  .obj (index.map (fun hv => (natToString hv.1, .arr (hv.2.map .str))))

/-- `HashIndex::calculate_index_hash`. -/
def calculate_index_hash (index : List (Nat × List String)) : String :=
  calculate_sha256 ⟨serValueC (bucketsToValue index)⟩

/-- `HashIndex::save_index`: pretty-print the bucket map into
`Indefx/<name>.json` via the temp-then-rename pattern, then write
`hashes/<name>.hash`.  A no-op for unknown index names. -/
def save_index (hi : HashIndex) (name : String) (w : World) : World :=
  match idxLookup hi.indexes name with
  | none => w
  | some index =>
    let index_file := index_dir ++ "/" ++ name ++ ".json"
    let hash_file := hash_dir ++ "/" ++ name ++ ".hash"
    let temp_file := with_extension index_file "tmp"
    let w1 := wWrite w temp_file (serValue 0 (bucketsToValue index))
    let w2 := wRename w1 temp_file index_file
    wWrite w2 hash_file (calculate_index_hash index).data

/-- `HashIndex::create_index`. -/
def create_index (hi : HashIndex) (name : String) (w : World) : HashIndex × World :=
  let hi' : HashIndex := ⟨idxSet hi.indexes name []⟩
  (hi', save_index hi' name w)

/-- `HashIndex::add_to_index`. -/
def add_to_index (hi : HashIndex) (name key : String) (v : Value) (w : World) :
    HashIndex × World :=
  match idxLookup hi.indexes name with
  | none => (hi, w)
  | some index =>
    let h := hash_value v
    let bucket := (bucketLookup index h).getD []
    let hi' : HashIndex := ⟨idxSet hi.indexes name (bucketSet index h (bucket ++ [key]))⟩
    (hi', save_index hi' name w)

/-- `HashIndex::remove_from_index`: drop the key from the bucket of the
value's hash; an emptied bucket is removed. -/
def remove_from_index (hi : HashIndex) (name key : String) (v : Value) (w : World) :
    HashIndex × World :=
  match idxLookup hi.indexes name with
  | none => (hi, w)
  | some index =>
    let h := hash_value v
    let index' :=
      match bucketLookup index h with
      | none => index
      | some keys =>
        let keys' := keys.filter (fun k => k ≠ key)
        if keys'.isEmpty then bucketRemove index h else bucketSet index h keys'
    let hi' : HashIndex := ⟨idxSet hi.indexes name index'⟩
    (hi', save_index hi' name w)

/-- `HashIndex::find_by_value`. -/
def find_by_value (hi : HashIndex) (name : String) (v : Value) : List String :=
  match idxLookup hi.indexes name with
  | none => []
  | some index => (bucketLookup index (hash_value v)).getD []

/-- `HashIndex::find_by_hash`. -/
def find_by_hash (hi : HashIndex) (name : String) (h : Nat) : List String :=
  match idxLookup hi.indexes name with
  | none => []
  | some index => (bucketLookup index h).getD []

def buildBuckets : List (String × Value) → List (Nat × List String) → List (Nat × List String)
  | [], acc => acc
  | (k, v) :: rest, acc =>
    let h := hash_value v
    buildBuckets rest (bucketSet acc h (((bucketLookup acc h).getD []) ++ [k]))

/-- `HashIndex::rebuild_index`. -/
def rebuild_index (hi : HashIndex) (name : String) (storage : List (String × Value))
    (w : World) : HashIndex × World :=
  match idxLookup hi.indexes name with
  | none => (hi, w)
  | some _ =>
    let hi' : HashIndex := ⟨idxSet hi.indexes name (buildBuckets storage [])⟩
    (hi', save_index hi' name w)

/-- `HashIndex::clear_index`. -/
def clear_index (hi : HashIndex) (name : String) (w : World) : HashIndex × World :=
  match idxLookup hi.indexes name with
  | none => (hi, w)
  | some _ =>
    let hi' : HashIndex := ⟨idxSet hi.indexes name []⟩
    (hi', save_index hi' name w)

/-- `HashIndex::index_exists`. -/
def index_exists (hi : HashIndex) (name : String) : Bool :=
  (idxLookup hi.indexes name).isSome

/-- `HashIndex::get_index_stats`: unique hash count and total entry count. -/
def get_index_stats (hi : HashIndex) (name : String) : Option (Nat × Nat) :=
  match idxLookup hi.indexes name with
  | none => none
  | some index => some (index.length, (index.map (fun b => b.2.length)).sum)

/-- `HashIndex::save_data_hash`: write a hash record beside the hash
directory under `<filename>.hash`. -/
def save_data_hash (w : World) (filename h : String) : World :=
  wWrite w (hash_dir ++ "/" ++ filename ++ ".hash") h.data

/-- The `add` command of `run_session` (`src/main.rs`): the store mutation
is performed, the session's `HashIndex` is not consulted. -/
def session_insert (db : InMemoryDB) (hi : HashIndex) (key : String) (v : Value)
    (renameOk : Bool) (w : World) :
    (InMemoryDB × HashIndex) × World × Except IoError Unit :=
  let (db', w', r) := insert db key v renameOk w
  ((db', hi), w', r)

/-! ### Field-path extraction (`extract_field_value`) -/

/-- `usize::from_str`: an optional `+`, then digits, overflow-checked. -/
def parseUsize (cs : List Char) : Option Nat :=
  let cs' := match cs with
    | '+' :: rest => rest
    | _ => cs
  if cs'.isEmpty then none
  else if cs'.all isDigitChar then
    let n := digitsToNat cs'
    if n < 18446744073709551616 then some n else none
  else none

def extractLoop : List (List Char) → Value → Option Value
  | [], cur => some cur
  | part :: rest, cur =>
    match cur with
    | .obj entries =>
      match storageLookup entries ⟨part⟩ with
      | some nxt => extractLoop rest nxt
      | none => none
    | .arr items =>
      match parseUsize part with
      | some idx =>
        match items[idx]? with
        | some nxt => extractLoop rest nxt
        | none => none
      | none => none
    | _ => none

/-- `extract_field_value` of `src/hash_index.rs`. -/
def extract_field_value (v : Value) (field_path : String) : Option Value :=
  extractLoop (splitOnChar '.' field_path.data) v

/-- One step of the walk the specification describes: an object resolves a
segment by key, an array by parsed numeric index, anything else fails. -/
def segStep (cur : Value) (part : List Char) : Option Value :=
  match cur with
  | .obj entries => storageLookup entries ⟨part⟩
  | .arr items =>
    match parseUsize part with
    | some idx => items[idx]?
    | none => none
  | _ => none

/-- The specification's description of field-path extraction: fold the
dot-separated segments, failing (and staying failed) as soon as one cannot
be resolved. -/
def extractSpec (v : Value) (field_path : String) : Option Value :=
  (splitOnChar '.' field_path.data).foldl
    (fun acc part => acc.bind (fun cur => segStep cur part)) (some v)

/-! ## Theorems -/

set_option maxRecDepth 100000

/-! ### C9: field-path extraction -/

theorem foldl_segStep_none (parts : List (List Char)) :
    parts.foldl (fun acc part => acc.bind (fun cur => segStep cur part)) none = none := by
  induction parts with
  | nil => rfl
  | cons p ps ih => simpa using ih

theorem extractLoop_eq_foldl (parts : List (List Char)) (v : Value) :
    extractLoop parts v =
      parts.foldl (fun acc part => acc.bind (fun cur => segStep cur part)) (some v) := by
  induction parts generalizing v with
  | nil => rfl
  | cons p ps ih =>
    have hstep : ∀ u : Value, extractLoop (p :: ps) u =
        match segStep u p with
        | some nxt => extractLoop ps nxt
        | none => none := by
      intro u
      cases u with
      | arr items =>
        simp only [extractLoop, segStep]
        cases parseUsize p <;> rfl
      | _ => rfl
    rw [hstep v]
    simp only [List.foldl_cons, Option.some_bind]
    cases h : segStep v p with
    | none => simpa using (foldl_segStep_none ps).symm
    | some nxt => exact ih nxt

/-- C9: field-path extraction walks objects by key and arrays by parsed
numeric index, failing as soon as a segment cannot be resolved (it agrees
with the fold of single-segment steps over the dot-split path), and on
`\x7b"user":\x7b"name":"Ann","tags":["x","y"]\x7d\x7d` the paths
`"user.name"`, `"user.tags.1"` and `"user.missing"` resolve to `"Ann"`,
`"y"` and no match respectively. -/
theorem C9_field_path_extraction :
    (∀ (v : Value) (p : String), extract_field_value v p = extractSpec v p)
    ∧ extract_field_value
        (.obj [("user", .obj [("name", .str "Ann"), ("tags", .arr [.str "x", .str "y"])])])
        "user.name" = some (.str "Ann")
    ∧ extract_field_value
        (.obj [("user", .obj [("name", .str "Ann"), ("tags", .arr [.str "x", .str "y"])])])
        "user.tags.1" = some (.str "y")
    ∧ extract_field_value
        (.obj [("user", .obj [("name", .str "Ann"), ("tags", .arr [.str "x", .str "y"])])])
        "user.missing" = none := by
  refine ⟨fun v p => extractLoop_eq_foldl _ v, by rfl, by rfl, by rfl⟩

/-! ### C10: operations on a never-created index name -/

/-- C10: on an index name that was never created, `add_to_index`,
`remove_from_index`, `rebuild_index` and `clear_index` leave the index
structure and the file system untouched, `find_by_value` and `find_by_hash`
return the empty list, and `get_index_stats` returns `none`; none of them
creates the index or fails. -/
theorem C10_missing_index_noops (hi : HashIndex) (name : String)
    (habsent : index_exists hi name = false) :
    (∀ (key : String) (v : Value) (w : World), add_to_index hi name key v w = (hi, w))
    ∧ (∀ (key : String) (v : Value) (w : World), remove_from_index hi name key v w = (hi, w))
    ∧ (∀ (storage : List (String × Value)) (w : World),
        rebuild_index hi name storage w = (hi, w))
    ∧ (∀ w : World, clear_index hi name w = (hi, w))
    ∧ (∀ v : Value, find_by_value hi name v = [])
    ∧ (∀ h : Nat, find_by_hash hi name h = [])
    ∧ get_index_stats hi name = none := by
  have hl : idxLookup hi.indexes name = none := by
    cases h : idxLookup hi.indexes name with
    | none => rfl
    | some b => rw [index_exists, h] at habsent; simp at habsent
  refine ⟨fun key v w => ?_, fun key v w => ?_, fun storage w => ?_, fun w => ?_,
    fun v => ?_, fun h => ?_, ?_⟩ <;>
    simp [add_to_index, remove_from_index, rebuild_index, clear_index,
      find_by_value, find_by_hash, get_index_stats, hl]

/-- Witness for C10 at a concrete state: an index structure holding only
`"other"` and the never-created name `"users"`. -/
theorem C10_witness :
    index_exists (⟨[("other", [(3, ["a"])])]⟩ : HashIndex) "users" = false
    ∧ add_to_index ⟨[("other", [(3, ["a"])])]⟩ "users" "k" (.num 1) ⟨⟨[]⟩, 0⟩ =
        (⟨[("other", [(3, ["a"])])]⟩, ⟨⟨[]⟩, 0⟩)
    ∧ find_by_value ⟨[("other", [(3, ["a"])])]⟩ "users" (.num 1) = []
    ∧ get_index_stats ⟨[("other", [(3, ["a"])])]⟩ "users" = none := by
  refine ⟨by rfl, ?_, ?_, ?_⟩
  · exact (C10_missing_index_noops ⟨[("other", [(3, ["a"])])]⟩ "users" (by rfl)).1 "k" (.num 1) _
  · exact (C10_missing_index_noops ⟨[("other", [(3, ["a"])])]⟩ "users" (by rfl)).2.2.2.2.1 (.num 1)
  · exact (C10_missing_index_noops ⟨[("other", [(3, ["a"])])]⟩ "users" (by rfl)).2.2.2.2.2.2

/-! ### C7: `update` versus `insert` -/

/-- C7: when the key exists, `update` performs exactly the state change of
`insert` (same storage, same file system, same save outcome) and reports
`true`; when the key is absent it reports `false` and leaves the store, the
file system and the clock untouched. -/
theorem C7_update_semantics :
    (∀ (db : InMemoryDB) (key : String) (v : Value) (ro : Bool) (w : World),
      containsKey db.storage key = true →
      update db key v ro w =
        ((insert db key v ro w).1, (insert db key v ro w).2.1,
          (insert db key v ro w).2.2.map (fun _ => true)))
    ∧ (∀ (db : InMemoryDB) (key : String) (v : Value) (ro : Bool) (w : World),
      containsKey db.storage key = false →
      update db key v ro w = (db, w, .ok false)) := by
  constructor
  · intro db key v ro w h
    cases hc : db.auto_save && db.persistence_file.isSome with
    | false => simp [update, insert, h, hc, Except.map]
    | true =>
      rcases hs : save_to_file { db with storage := storageInsert db.storage key v } ro w
        with ⟨w', r⟩
      simp [update, insert, h, hc, hs]
  · intro db key v ro w h
    simp [update, h]

/-- Witness for C7: a present key behaves as `insert` and returns `true`, an
absent key is a no-op returning `false`. -/
theorem C7_witness :
    containsKey [("k", Value.num 1)] "k" = true
    ∧ update ⟨[("k", .num 1)], none, true, false⟩ "k" (.num 2) true ⟨⟨[]⟩, 0⟩ =
        ((insert ⟨[("k", .num 1)], none, true, false⟩ "k" (.num 2) true ⟨⟨[]⟩, 0⟩).1,
          (insert ⟨[("k", .num 1)], none, true, false⟩ "k" (.num 2) true ⟨⟨[]⟩, 0⟩).2.1,
          (insert ⟨[("k", .num 1)], none, true, false⟩ "k" (.num 2) true
            ⟨⟨[]⟩, 0⟩).2.2.map (fun _ => true))
    ∧ containsKey [("k", Value.num 1)] "j" = false
    ∧ update ⟨[("k", .num 1)], none, true, false⟩ "j" (.num 2) true ⟨⟨[]⟩, 0⟩ =
        (⟨[("k", .num 1)], none, true, false⟩, ⟨⟨[]⟩, 0⟩, .ok false) := by
  refine ⟨by rfl, ?_, by rfl, ?_⟩
  · exact C7_update_semantics.1 ⟨[("k", .num 1)], none, true, false⟩ "k" (.num 2) true
      ⟨⟨[]⟩, 0⟩ (by rfl)
  · exact C7_update_semantics.2 ⟨[("k", .num 1)], none, true, false⟩ "j" (.num 2) true
      ⟨⟨[]⟩, 0⟩ (by rfl)

/-! ### C1: `insert` and index maintenance -/

theorem storageLookup_insert_self (st : List (String × Value)) (k : String) (v : Value) :
    storageLookup (storageInsert st k v) k = some v := by
  induction st with
  | nil => simp [storageInsert, storageLookup]
  | cons kv rest ih =>
    by_cases h : kv.1 = k
    · simp [storageInsert, storageLookup, h]
    · simp only [storageInsert, storageLookup]
      rw [if_neg h, storageLookup, if_neg h]
      exact ih

theorem idxLookup_set_self (l : List (String × List (Nat × List String))) (n : String)
    (b : List (Nat × List String)) : idxLookup (idxSet l n b) n = some b := by
  induction l with
  | nil => simp [idxSet, idxLookup]
  | cons nb rest ih =>
    by_cases h : nb.1 = n
    · simp [idxSet, idxLookup, h]
    · simp only [idxSet, idxLookup]
      rw [if_neg h, idxLookup, if_neg h]
      exact ih

theorem bucketLookup_set_self (idx : List (Nat × List String)) (h : Nat) (ks : List String) :
    bucketLookup (bucketSet idx h ks) h = some ks := by
  induction idx with
  | nil => simp [bucketSet, bucketLookup]
  | cons b rest ih =>
    by_cases hb : b.1 = h
    · simp [bucketSet, bucketLookup, hb]
    · simp only [bucketSet, bucketLookup]
      rw [if_neg hb, bucketLookup, if_neg hb]
      exact ih

theorem bucketLookup_set_ne (idx : List (Nat × List String)) (h h' : Nat) (ks : List String)
    (hne : h' ≠ h) : bucketLookup (bucketSet idx h ks) h' = bucketLookup idx h' := by
  induction idx with
  | nil =>
    simp only [bucketSet, bucketLookup]
    rw [if_neg (Ne.symm hne)]
  | cons b rest ih =>
    by_cases hb : b.1 = h
    · simp only [bucketSet, if_pos hb, bucketLookup]
      rw [if_neg (Ne.symm hne), if_neg (show ¬b.1 = h' by rw [hb]; exact Ne.symm hne)]
    · simp only [bucketSet, if_neg hb, bucketLookup]
      by_cases hb' : b.1 = h'
      · rw [if_pos hb', if_pos hb']
      · rw [if_neg hb', if_neg hb']
        exact ih

theorem bucketLookup_not_mem (idx : List (Nat × List String)) (h : Nat)
    (habs : h ∉ idx.map Prod.fst) : bucketLookup idx h = none := by
  induction idx with
  | nil => rfl
  | cons b rest ih =>
    simp only [List.map_cons, List.mem_cons] at habs
    push_neg at habs
    simp only [bucketLookup]
    rw [if_neg (fun he => habs.1 he.symm)]
    exact ih habs.2

theorem bucketLookup_remove_self (idx : List (Nat × List String)) (h : Nat)
    (hnodup : (idx.map Prod.fst).Nodup) : bucketLookup (bucketRemove idx h) h = none := by
  induction idx with
  | nil => rfl
  | cons b rest ih =>
    simp only [List.map_cons, List.nodup_cons] at hnodup
    by_cases hb : b.1 = h
    · simp only [bucketRemove, if_pos hb]
      exact bucketLookup_not_mem rest h (hb ▸ hnodup.1)
    · simp only [bucketRemove, if_neg hb, bucketLookup, if_neg hb]
      exact ih hnodup.2

theorem insert_fst (db : InMemoryDB) (key : String) (v : Value) (ro : Bool) (w : World) :
    (insert db key v ro w).1 = { db with storage := storageInsert db.storage key v } := by
  cases hc : db.auto_save && db.persistence_file.isSome with
  | false => simp [insert, hc]
  | true =>
    rcases hs : save_to_file { db with storage := storageInsert db.storage key v } ro w
      with ⟨w', r⟩
    simp [insert, hc, hs]

theorem session_insert_index (db : InMemoryDB) (hi : HashIndex) (key : String) (v : Value)
    (ro : Bool) (w : World) : (session_insert db hi key v ro w).1.2 = hi := by
  rcases hins : insert db key v ro w with ⟨db', w', r⟩
  simp [session_insert, hins]

/-- C1 counterexample: a store holding `"k" ↦ "old"` and one active index
`"idx"` whose bucket for `hash("old")` contains `"k"`.  After the insert
operation implemented by the code replaces the value with `7`, the new value
is visible to readers, yet the index still lists `"k"` under the old value's
hash and not under the new one — the code's insert performs no index
maintenance at all, contrary to the claim. -/
theorem C1_counterexample :
    index_exists ⟨[("idx", [(hash_value (.str "old"), ["k"])])]⟩ "idx" = true
    ∧ find_by_value ⟨[("idx", [(hash_value (.str "old"), ["k"])])]⟩ "idx" (.str "old") = ["k"]
    ∧ get (session_insert ⟨[("k", .str "old")], none, true, false⟩
        ⟨[("idx", [(hash_value (.str "old"), ["k"])])]⟩ "k" (.num 7) true ⟨⟨[]⟩, 0⟩).1.1 "k" =
        some (.num 7)
    ∧ find_by_value (session_insert ⟨[("k", .str "old")], none, true, false⟩
        ⟨[("idx", [(hash_value (.str "old"), ["k"])])]⟩ "k" (.num 7) true ⟨⟨[]⟩, 0⟩).1.2
        "idx" (.str "old") = ["k"]
    ∧ find_by_value (session_insert ⟨[("k", .str "old")], none, true, false⟩
        ⟨[("idx", [(hash_value (.str "old"), ["k"])])]⟩ "k" (.num 7) true ⟨⟨[]⟩, 0⟩).1.2
        "idx" (.num 7) = [] := by
  refine ⟨rfl, rfl, rfl, rfl, rfl⟩

/-- C1 as amended: `insert` overwrites the key's value in the store mapping
and leaves every index untouched; the consistent bucket update the claim
describes (remove the key from the old value's bucket, add it to the new
value's bucket) is what an explicit `remove_from_index` with the old value
followed by `add_to_index` with the new value performs. -/
theorem C1_insert_index_maintenance (db : InMemoryDB) (hi : HashIndex)
    (name key : String) (old new : Value) (index : List (Nat × List String))
    (hidx : idxLookup hi.indexes name = some index)
    (hnodup : (index.map Prod.fst).Nodup)
    (hne : hash_value old ≠ hash_value new) (ro : Bool) (w : World) :
    (session_insert db hi key new ro w).1.2 = hi
    ∧ get (session_insert db hi key new ro w).1.1 key = some new
    ∧ key ∈ find_by_value
        (add_to_index (remove_from_index hi name key old w).1 name key new
          (remove_from_index hi name key old w).2).1 name new
    ∧ key ∉ find_by_value
        (add_to_index (remove_from_index hi name key old w).1 name key new
          (remove_from_index hi name key old w).2).1 name old := by
  have h1 := session_insert_index db hi key new ro w
  have h2 : get (session_insert db hi key new ro w).1.1 key = some new := by
    rcases hins : insert db key new ro w with ⟨db', w', r⟩
    have : db' = { db with storage := storageInsert db.storage key new } := by
      have := insert_fst db key new ro w
      rw [hins] at this
      exact this
    simp [session_insert, hins, this, get, storageLookup_insert_self]
  -- the state after the explicit removal
  set hOld := hash_value old with hOldDef
  set hNew := hash_value new with hNewDef
  have hrem : (remove_from_index hi name key old w).1.indexes =
      idxSet hi.indexes name
        (match bucketLookup index hOld with
          | none => index
          | some keys =>
            let keys' := keys.filter (fun k => k ≠ key)
            if keys'.isEmpty then bucketRemove index hOld else bucketSet index hOld keys') := by
    rcases hw : remove_from_index hi name key old w with ⟨hi1, w1⟩
    simp only [remove_from_index, hidx] at hw
    cases hw' : bucketLookup index hOld <;> simp [hw', ← hOldDef] at hw <;>
      simp [← hw.1, hw']
  -- name the removal result index
  set index1 := (match bucketLookup index hOld with
    | none => index
    | some keys =>
      let keys' := keys.filter (fun k => k ≠ key)
      if keys'.isEmpty then bucketRemove index hOld else bucketSet index hOld keys')
    with hidx1
  have hlook1 : idxLookup (remove_from_index hi name key old w).1.indexes name = some index1 := by
    rw [hrem]; exact idxLookup_set_self _ _ _
  -- key is not in the old bucket after removal
  have hnotOld : ∀ ks, bucketLookup index1 hOld = some ks → key ∉ ks := by
    intro ks hks
    rw [hidx1] at hks
    cases hb : bucketLookup index hOld with
    | none => rw [hb] at hks; rw [hb] at hks; simp [hb] at hks
    | some keys =>
      rw [hb] at hks
      simp only at hks
      by_cases hemp : (keys.filter (fun k => k ≠ key)).isEmpty
      · rw [if_pos hemp] at hks
        rw [bucketLookup_remove_self index hOld hnodup] at hks
        exact absurd hks (by simp)
      · rw [if_neg hemp] at hks
        rw [bucketLookup_set_self] at hks
        cases hks
        intro hmem
        have := List.mem_filter.mp hmem
        simp at this
  -- the state after the addition
  rcases ha : add_to_index (remove_from_index hi name key old w).1 name key new
      (remove_from_index hi name key old w).2 with ⟨hi2, w2⟩
  have ha' := ha
  simp only [add_to_index, hlook1, ← hNewDef] at ha'
  have hfst := congrArg Prod.fst ha'
  simp only at hfst
  have hlook2 : idxLookup hi2.indexes name =
      some (bucketSet index1 hNew (((bucketLookup index1 hNew).getD []) ++ [key])) := by
    rw [← hfst]
    exact idxLookup_set_self _ _ _
  refine ⟨h1, h2, ?_, ?_⟩
  · show key ∈ find_by_value hi2 name new
    simp only [find_by_value, hlook2, ← hNewDef, bucketLookup_set_self]
    simp
  · show key ∉ find_by_value hi2 name old
    simp only [find_by_value, hlook2, ← hOldDef]
    rw [bucketLookup_set_ne _ _ _ _ hne]
    cases hb : bucketLookup index1 hOld with
    | none => simp
    | some ks =>
      simp only [Option.getD_some]
      exact hnotOld ks hb

/-- Witness for the amended C1 at a concrete store, index and pair of
values. -/
theorem C1_witness :
    idxLookup (HashIndex.indexes ⟨[("idx", [(hash_value (.str "old"), ["k"])])]⟩) "idx" =
        some [(hash_value (.str "old"), ["k"])]
    ∧ hash_value (Value.str "old") ≠ hash_value (Value.num 7)
    ∧ ((session_insert ⟨[("k", .str "old")], none, true, false⟩
          ⟨[("idx", [(hash_value (.str "old"), ["k"])])]⟩ "k" (.num 7) true ⟨⟨[]⟩, 0⟩).1.2 =
        ⟨[("idx", [(hash_value (.str "old"), ["k"])])]⟩
      ∧ get (session_insert ⟨[("k", .str "old")], none, true, false⟩
          ⟨[("idx", [(hash_value (.str "old"), ["k"])])]⟩ "k" (.num 7) true
          ⟨⟨[]⟩, 0⟩).1.1 "k" = some (.num 7)
      ∧ "k" ∈ find_by_value
          (add_to_index (remove_from_index ⟨[("idx", [(hash_value (.str "old"), ["k"])])]⟩
            "idx" "k" (.str "old") ⟨⟨[]⟩, 0⟩).1 "idx" "k" (.num 7)
            (remove_from_index ⟨[("idx", [(hash_value (.str "old"), ["k"])])]⟩
              "idx" "k" (.str "old") ⟨⟨[]⟩, 0⟩).2).1 "idx" (.num 7)
      ∧ "k" ∉ find_by_value
          (add_to_index (remove_from_index ⟨[("idx", [(hash_value (.str "old"), ["k"])])]⟩
            "idx" "k" (.str "old") ⟨⟨[]⟩, 0⟩).1 "idx" "k" (.num 7)
            (remove_from_index ⟨[("idx", [(hash_value (.str "old"), ["k"])])]⟩
              "idx" "k" (.str "old") ⟨⟨[]⟩, 0⟩).2).1 "idx" (.str "old")) := by
  refine ⟨rfl, by decide, ?_⟩
  exact C1_insert_index_maintenance ⟨[("k", .str "old")], none, true, false⟩
    ⟨[("idx", [(hash_value (.str "old"), ["k"])])]⟩ "idx" "k" (.str "old") (.num 7)
    [(hash_value (.str "old"), ["k"])] rfl (by simp) (by decide) true ⟨⟨[]⟩, 0⟩

/-! ### C3: `save_to_file` and integrity records -/

theorem fsLookupAux_set_self (l : List (String × FileEntry)) (p : String) (e : FileEntry) :
    fsLookupAux (fsSetAux p e l) p = some e := by
  induction l with
  | nil => simp [fsSetAux, fsLookupAux]
  | cons kv rest ih =>
    by_cases h : kv.1 = p
    · simp [fsSetAux, fsLookupAux, h]
    · simp only [fsSetAux, fsLookupAux]
      rw [if_neg h, fsLookupAux, if_neg h]
      exact ih

theorem fsLookup_set_self (fs : FS) (p : String) (e : FileEntry) :
    fsLookup (fsSet fs p e) p = some e := fsLookupAux_set_self fs.files p e

theorem fsLookupAux_set_ne (l : List (String × FileEntry)) (p q : String) (e : FileEntry)
    (h : q ≠ p) : fsLookupAux (fsSetAux p e l) q = fsLookupAux l q := by
  induction l with
  | nil =>
    simp only [fsSetAux, fsLookupAux]
    rw [if_neg (Ne.symm h)]
  | cons kv rest ih =>
    by_cases hk : kv.1 = p
    · simp only [fsSetAux, if_pos hk, fsLookupAux]
      rw [if_neg (Ne.symm h), if_neg (show ¬kv.1 = q by rw [hk]; exact Ne.symm h)]
    · simp only [fsSetAux, if_neg hk, fsLookupAux]
      by_cases hq : kv.1 = q
      · rw [if_pos hq, if_pos hq]
      · rw [if_neg hq, if_neg hq]
        exact ih

theorem fsLookup_set_ne (fs : FS) (p q : String) (e : FileEntry) (h : q ≠ p) :
    fsLookup (fsSet fs p e) q = fsLookup fs q := fsLookupAux_set_ne fs.files p q e h

theorem fsLookupAux_remove_ne (l : List (String × FileEntry)) (p q : String) (h : q ≠ p) :
    fsLookupAux (fsRemoveAux p l) q = fsLookupAux l q := by
  induction l with
  | nil => rfl
  | cons kv rest ih =>
    by_cases hk : kv.1 = p
    · rw [fsRemoveAux, if_pos hk, fsLookupAux, if_neg (show ¬kv.1 = q by rw [hk]; exact Ne.symm h)]
    · rw [fsRemoveAux, if_neg hk, fsLookupAux, fsLookupAux]
      by_cases hq : kv.1 = q
      · rw [if_pos hq, if_pos hq]
      · rw [if_neg hq, if_neg hq]
        exact ih

theorem fsLookup_remove_ne (fs : FS) (p q : String) (h : q ≠ p) :
    fsLookup (fsRemove fs p) q = fsLookup fs q := fsLookupAux_remove_ne fs.files p q h

theorem fsLookup_rename_ne (fs : FS) (src dst q : String) (h1 : q ≠ src) (h2 : q ≠ dst) :
    fsLookup (fsRename fs src dst) q = fsLookup fs q := by
  rw [fsRename]
  cases he : fsLookup fs src with
  | none => rfl
  | some e => rw [fsLookup_set_ne _ _ _ _ h2, fsLookup_remove_ne _ _ _ h1]

/-- Frame property of `create_backup`: only the timestamped backup path can
change. -/
theorem create_backup_frame (db : InMemoryDB) (path q : String) (w : World)
    (hq : q ≠ with_extension path ("backup." ++ natToString w.now)) :
    fsLookup (create_backup db path w).fs q = fsLookup w.fs q := by
  unfold create_backup
  cases hb : db.backup_enabled with
  | false => rw [if_pos rfl]
  | true =>
    rw [if_neg (by simp)]
    cases he : fsLookup w.fs path with
    | none => rfl
    | some e => exact fsLookup_set_ne _ _ _ _ hq

/-- C3 counterexample: a concrete persistent save (auto-backup enabled, one
existing record on disk).  The save succeeds, the resulting file system
holds exactly the data file and the backup copy, and no file at all — in
particular no `.hash` file — holds the SHA-256 integrity record of the
snapshot the claim says is persisted. -/
theorem C3_counterexample :
    (save_to_file ⟨[("k", .str "v")], some "stpers/db.json", true, true⟩ true
        ⟨⟨[("stpers/db.json", ⟨"old".data, 0⟩)]⟩, 5⟩).2 = .ok ()
    ∧ ((save_to_file ⟨[("k", .str "v")], some "stpers/db.json", true, true⟩ true
        ⟨⟨[("stpers/db.json", ⟨"old".data, 0⟩)]⟩, 5⟩).1.fs.files.map Prod.fst) =
        ["stpers/db.json", "stpers/db.backup.5"]
    ∧ ∀ kv ∈ (save_to_file ⟨[("k", .str "v")], some "stpers/db.json", true, true⟩ true
        ⟨⟨[("stpers/db.json", ⟨"old".data, 0⟩)]⟩, 5⟩).1.fs.files,
        ".hash".data.isSuffixOf kv.1.data = false
        ∧ kv.2.content ≠ (create_data_hash [("k", Value.str "v")]).data := by
  refine ⟨rfl, rfl, by decide⟩

/-- C3 as amended: a successful `save_to_file` touches only the data file,
its `.tmp` sibling and (at most) the timestamped backup; it never computes
or persists an integrity record.  SHA-256 integrity records exist in the
code but are written only when `save_data_hash` is invoked explicitly,
which stores the given digest under `hashes/<filename>.hash`. -/
theorem C3_save_integrity_record (db : InMemoryDB) (path : String) (w : World)
    (hp : db.persistence_file = some path) :
    (save_to_file db true w).2 = .ok ()
    ∧ (∀ q : String, q ≠ path → q ≠ with_extension path "tmp" →
        q ≠ with_extension path ("backup." ++ natToString w.now) →
        fsLookup (save_to_file db true w).1.fs q = fsLookup w.fs q)
    ∧ (∀ (w' : World) (filename h : String),
        fsLookup (save_data_hash w' filename h).fs
          (hash_dir ++ "/" ++ filename ++ ".hash") = some ⟨h.data, w'.now⟩) := by
  refine ⟨?_, ?_, ?_⟩
  · simp [save_to_file, hp]
  · intro q hq1 hq2 hq3
    have hsf : (save_to_file db true w).1 =
        wRename (save_stage_temp db path w) (with_extension path "tmp") path := by
      simp [save_to_file, hp]
    rw [hsf]
    show fsLookup (fsRename (save_stage_temp db path w).fs
      (with_extension path "tmp") path) q = _
    rw [fsLookup_rename_ne _ _ _ _ hq2 hq1]
    show fsLookup (fsSet (save_stage_backup db path w).fs (with_extension path "tmp")
      ⟨serializeMap db.storage, (save_stage_backup db path w).now⟩) q = _
    rw [fsLookup_set_ne _ _ _ _ hq2]
    exact create_backup_frame db path q w hq3
  · intro w' filename h
    exact fsLookup_set_self _ _ _

/-- Witness for the amended C3 at a concrete store and world. -/
theorem C3_witness :
    (save_to_file ⟨[("k", .str "v")], some "stpers/db.json", true, true⟩ true
        ⟨⟨[("stpers/db.json", ⟨"old".data, 0⟩)]⟩, 5⟩).2 = .ok ()
    ∧ fsLookup (save_to_file ⟨[("k", .str "v")], some "stpers/db.json", true, true⟩ true
        ⟨⟨[("stpers/db.json", ⟨"old".data, 0⟩)]⟩, 5⟩).1.fs "hashes/db.json.hash" =
        fsLookup (⟨[("stpers/db.json", ⟨"old".data, 0⟩)]⟩ : FS) "hashes/db.json.hash"
    ∧ fsLookup (save_data_hash ⟨⟨[]⟩, 7⟩ "db.json" "abc").fs "hashes/db.json.hash" =
        some ⟨"abc".data, 7⟩ := by
  have h := C3_save_integrity_record ⟨[("k", .str "v")], some "stpers/db.json", true, true⟩
    "stpers/db.json" ⟨⟨[("stpers/db.json", ⟨"old".data, 0⟩)]⟩, 5⟩ rfl
  exact ⟨h.1, h.2.1 "hashes/db.json.hash" (by decide) (by decide) (by decide),
    h.2.2 ⟨⟨[]⟩, 7⟩ "db.json" "abc"⟩

/-! ### C6: load behaviour -/

theorem splitOnChar_ne_nil (sep : Char) (cs : List Char) : splitOnChar sep cs ≠ [] := by
  cases cs with
  | nil => simp [splitOnChar]
  | cons c cs =>
    rw [splitOnChar]
    by_cases h : c = sep
    · simp [h]
    · rw [if_neg h]
      cases splitOnChar sep cs <;> simp

theorem mem_of_mem_splitOnChar (sep : Char) (cs : List Char) :
    ∀ l ∈ splitOnChar sep cs, ∀ c ∈ l, c ∈ cs := by
  induction cs with
  | nil =>
    intro l hl c hc
    simp [splitOnChar] at hl
    subst hl
    simp at hc
  | cons c' cs ih =>
    intro l hl c hc
    rw [splitOnChar] at hl
    by_cases h : c' = sep
    · rw [if_pos h] at hl
      rcases List.mem_cons.mp hl with h1 | h1
      · subst h1; simp at hc
      · exact List.mem_cons_of_mem _ (ih l h1 c hc)
    · rw [if_neg h] at hl
      cases hs : splitOnChar sep cs with
      | nil => exact absurd hs (splitOnChar_ne_nil sep cs)
      | cons l₀ ls =>
        rw [hs] at hl
        rcases List.mem_cons.mp hl with h1 | h1
        · subst h1
          rcases List.mem_cons.mp hc with h2 | h2
          · exact h2 ▸ List.mem_cons_self _ _
          · exact List.mem_cons_of_mem _ (ih l₀ (hs ▸ List.mem_cons_self _ _) c h2)
        · exact List.mem_cons_of_mem _ (ih l (hs ▸ List.mem_cons_of_mem _ h1) c hc)

theorem exists_splitOnChar_mem (sep : Char) (cs : List Char) (c : Char) (hc : c ∈ cs)
    (hne : c ≠ sep) : ∃ l ∈ splitOnChar sep cs, c ∈ l := by
  induction cs with
  | nil => simp at hc
  | cons c' cs ih =>
    rw [splitOnChar]
    by_cases h : c' = sep
    · rw [if_pos h]
      rcases List.mem_cons.mp hc with h1 | h1
      · exact absurd (h1.trans h) hne
      · obtain ⟨l, hl, hcl⟩ := ih h1
        exact ⟨l, List.mem_cons_of_mem _ hl, hcl⟩
    · rw [if_neg h]
      cases hs : splitOnChar sep cs with
      | nil => exact absurd hs (splitOnChar_ne_nil sep cs)
      | cons l₀ ls =>
        rcases List.mem_cons.mp hc with h1 | h1
        · exact ⟨c' :: l₀, List.mem_cons_self _ _, h1 ▸ List.mem_cons_self _ _⟩
        · obtain ⟨l, hl, hcl⟩ := ih h1
          rw [hs] at hl
          rcases List.mem_cons.mp hl with h2 | h2
          · exact ⟨c' :: l₀, List.mem_cons_self _ _, h2 ▸ List.mem_cons_of_mem _ hcl⟩
          · exact ⟨l, List.mem_cons_of_mem _ h2, hcl⟩

theorem mem_stripCr_of_ne (l : List Char) (c : Char) (hc : c ∈ l) (hne : c ≠ '\r') :
    c ∈ stripCr l := by
  rw [stripCr]
  cases hg : l.getLast? with
  | none => exact hc
  | some d =>
    show c ∈ (if d = '\r' then l.dropLast else l)
    by_cases hd : d = '\r'
    · rw [if_pos hd]
      have hl : l.dropLast ++ [d] = l := List.dropLast_append_getLast? d hg
      rw [← hl] at hc
      rcases List.mem_append.mp hc with h1 | h1
      · exact h1
      · simp at h1
        exact absurd (h1.trans hd) hne
    · rw [if_neg hd]
      exact hc

theorem mem_rustLines (cs : List Char) (c : Char) (hc : c ∈ cs)
    (hw : isWsChar c = false) : ∃ l ∈ rustLines cs, c ∈ l := by
  have hn : c ≠ '\n' := by rintro rfl; simp [isWsChar] at hw
  have hr : c ≠ '\r' := by rintro rfl; simp [isWsChar] at hw
  obtain ⟨m, hm, hcm⟩ := exists_splitOnChar_mem '\n' cs c hc hn
  rw [rustLines]
  by_cases hlast : (splitOnChar '\n' cs).getLast? = some []
  · rw [if_pos hlast]
    have hnil : m ≠ [] := fun h => by simp [h] at hcm
    have hsplit : (splitOnChar '\n' cs).dropLast ++ [[]] =
        splitOnChar '\n' cs := List.dropLast_append_getLast? [] hlast
    rw [← hsplit] at hm
    rcases List.mem_append.mp hm with h1 | h1
    · exact ⟨stripCr m, List.mem_map_of_mem stripCr h1, mem_stripCr_of_ne m c hcm hr⟩
    · simp at h1
      exact absurd h1 hnil
  · rw [if_neg hlast]
    exact ⟨stripCr m, List.mem_map_of_mem stripCr hm, mem_stripCr_of_ne m c hcm hr⟩

theorem mem_rustLinesJoin (cs : List Char) (c : Char) (hc : c ∈ cs)
    (hw : isWsChar c = false) : c ∈ rustLinesJoin cs := by
  obtain ⟨l, hl, hcl⟩ := mem_rustLines cs c hc hw
  rw [rustLinesJoin]
  exact List.mem_flatten.mpr ⟨l ++ ['\n'], List.mem_map_of_mem _ hl,
    List.mem_append.mpr (Or.inl hcl)⟩

theorem rustLinesJoin_mem_imp (cs : List Char) (c : Char) (hc : c ∈ rustLinesJoin cs) :
    c ∈ cs ∨ c = '\n' := by
  rw [rustLinesJoin] at hc
  obtain ⟨l', hl', hcl'⟩ := List.mem_flatten.mp hc
  obtain ⟨l, hl, rfl⟩ := List.mem_map.mp hl'
  rcases List.mem_append.mp hcl' with h1 | h1
  · left
    rw [rustLines] at hl
    have hparts : l ∈ (splitOnChar '\n' cs).map stripCr := by
      by_cases hlast : (splitOnChar '\n' cs).getLast? = some []
      · rw [if_pos hlast] at hl
        obtain ⟨m, hm, rfl⟩ := List.mem_map.mp hl
        exact List.mem_map_of_mem stripCr (List.dropLast_subset _ hm)
      · rw [if_neg hlast] at hl
        exact hl
    obtain ⟨m, hm, rfl⟩ := List.mem_map.mp hparts
    have hsub : c ∈ m := by
      rw [stripCr] at h1
      cases hg : m.getLast? with
      | none => rw [hg] at h1; exact h1
      | some d =>
        rw [hg] at h1
        have h1' : c ∈ (if d = '\r' then m.dropLast else m) := h1
        by_cases hd : d = '\r'
        · rw [if_pos hd] at h1'
          exact List.dropLast_subset _ h1'
        · rw [if_neg hd] at h1'
          exact h1'
    exact mem_of_mem_splitOnChar '\n' cs m hm c hsub
  · right; simpa using h1

theorem trimChars_eq_nil_iff (cs : List Char) :
    trimChars cs = [] ↔ ∀ c ∈ cs, isWsChar c = true := by
  constructor
  · intro h c hc
    rw [trimChars] at h
    have h2 : (cs.dropWhile isWsChar).reverse.dropWhile isWsChar = [] := by
      have := congrArg List.reverse h
      simpa using this
    have hall : ∀ x ∈ (cs.dropWhile isWsChar).reverse, isWsChar x = true :=
      List.dropWhile_eq_nil_iff.mp h2
    have hdropAll : ∀ x ∈ cs.dropWhile isWsChar, isWsChar x = true := by
      intro x hx
      exact hall x (List.mem_reverse.mpr hx)
    have hcs : cs = cs.takeWhile isWsChar ++ cs.dropWhile isWsChar :=
      (List.takeWhile_append_dropWhile ..).symm
    rw [hcs] at hc
    rcases List.mem_append.mp hc with h1 | h1
    · exact List.mem_takeWhile_imp h1
    · exact hdropAll c h1
  · intro h
    rw [trimChars]
    have h1 : cs.dropWhile isWsChar = [] := List.dropWhile_eq_nil_iff.mpr h
    rw [h1]
    rfl

theorem trim_rustLinesJoin_nil (cs : List Char) (h : ∀ c ∈ cs, isWsChar c = true) :
    trimChars (rustLinesJoin cs) = [] := by
  rw [trimChars_eq_nil_iff]
  intro c hc
  rcases rustLinesJoin_mem_imp cs c hc with h1 | h1
  · exact h c h1
  · simp [h1, isWsChar]

theorem trim_rustLinesJoin_ne_nil (cs : List Char)
    (h : ¬∀ c ∈ cs, isWsChar c = true) : trimChars (rustLinesJoin cs) ≠ [] := by
  intro hnil
  push_neg at h
  obtain ⟨c, hc, hw⟩ := h
  have hw' : isWsChar c = false := by simpa using hw
  have := (trimChars_eq_nil_iff _).mp hnil c (mem_rustLinesJoin cs c hc hw')
  rw [this] at hw'
  cases hw'

/-- C6: loading a freshly constructed persistent store (empty in-memory
state, as in `new_with_persistence`) yields the empty store without error
when the file is missing, yields the empty store when the file's bytes are
empty or whitespace-only, and surfaces `InvalidData` when the non-empty
content does not parse as a JSON object of key/value pairs. -/
theorem C6_load_behavior (db : InMemoryDB) (path : String) (fs : FS)
    (hp : db.persistence_file = some path) (hs : db.storage = []) :
    (fsLookup fs path = none →
      load_from_file db fs = .ok db ∧ db.storage = [])
    ∧ (∀ e : FileEntry, fsLookup fs path = some e →
        (∀ c ∈ e.content, isWsChar c = true) →
        load_from_file db fs = .ok { db with storage := [] })
    ∧ (∀ e : FileEntry, fsLookup fs path = some e →
        (¬∀ c ∈ e.content, isWsChar c = true) →
        parseJsonObject (rustLinesJoin e.content) = none →
        load_from_file db fs = .error .invalidData) := by
  refine ⟨?_, ?_, ?_⟩
  · intro hnone
    simp only [load_from_file, hp, hnone]
    exact ⟨trivial, hs⟩
  · intro e he hws
    simp only [load_from_file, hp, he]
    rw [if_pos (trim_rustLinesJoin_nil e.content hws)]
  · intro e he hws hparse
    simp only [load_from_file, hp, he]
    rw [if_neg (trim_rustLinesJoin_ne_nil e.content hws), hparse]

/-- Witness for C6: the three branches at a concrete store and three
concrete file systems (missing file, whitespace-only file, unparseable
file). -/
theorem C6_witness :
    (load_from_file ⟨[], some "stpers/db.json", true, false⟩ ⟨[]⟩ =
        .ok ⟨[], some "stpers/db.json", true, false⟩)
    ∧ load_from_file ⟨[], some "stpers/db.json", true, false⟩
        ⟨[("stpers/db.json", ⟨" \t\n ".data, 0⟩)]⟩ =
        .ok ⟨[], some "stpers/db.json", true, false⟩
    ∧ load_from_file ⟨[], some "stpers/db.json", true, false⟩
        ⟨[("stpers/db.json", ⟨"not json".data, 0⟩)]⟩ = .error .invalidData := by
  have h := C6_load_behavior ⟨[], some "stpers/db.json", true, false⟩ "stpers/db.json"
    ⟨[]⟩ rfl rfl
  have h2 := C6_load_behavior ⟨[], some "stpers/db.json", true, false⟩ "stpers/db.json"
    ⟨[("stpers/db.json", ⟨" \t\n ".data, 0⟩)]⟩ rfl rfl
  have h3 := C6_load_behavior ⟨[], some "stpers/db.json", true, false⟩ "stpers/db.json"
    ⟨[("stpers/db.json", ⟨"not json".data, 0⟩)]⟩ rfl rfl
  refine ⟨(h.1 rfl).1, ?_, ?_⟩
  · exact h2.2.1 ⟨" \t\n ".data, 0⟩ rfl (by decide)
  · exact h3.2.2 ⟨"not json".data, 0⟩ rfl (by decide) (by rfl)

/-! ### C8: structural hashing and object key order -/

theorem char_toNat_inj (c d : Char) (h : c.toNat = d.toNat) : c = d := by
  have hv : c.val = d.val := by
    cases hc : c.val with
    | mk f =>
      cases hd : d.val with
      | mk g =>
        have h1 : c.val.toNat = d.val.toNat := h
        rw [hc, hd] at h1
        have hfg : f = g := BitVec.eq_of_toNat_eq h1
        rw [hfg]
  exact Char.eq_of_val_eq hv

theorem string_data_inj (a b : String) (h : a.data = b.data) : a = b := by
  cases a; cases b; simp only at h; rw [h]

theorem charsLe_total (a b : List Char) : charsLe a b = true ∨ charsLe b a = true := by
  induction a generalizing b with
  | nil => left; rfl
  | cons c cs ih =>
    cases b with
    | nil => right; rfl
    | cons d ds =>
      by_cases h : c.toNat = d.toNat
      · rw [charsLe, if_pos h, charsLe, if_pos h.symm]
        exact ih ds
      · rcases Nat.lt_or_ge c.toNat d.toNat with hlt | hge
        · left
          rw [charsLe, if_neg h]
          simpa using hlt
        · right
          rw [charsLe, if_neg (fun he => h he.symm)]
          simp only [decide_eq_true_eq]
          exact Nat.lt_of_le_of_ne hge (fun he => h he.symm)

theorem charsLe_antisymm (a b : List Char) (hab : charsLe a b = true)
    (hba : charsLe b a = true) : a = b := by
  induction a generalizing b with
  | nil =>
    cases b with
    | nil => rfl
    | cons d ds => exact absurd hba (by rw [charsLe]; simp)
  | cons c cs ih =>
    cases b with
    | nil => exact absurd hab (by rw [charsLe]; simp)
    | cons d ds =>
      by_cases h : c.toNat = d.toNat
      · rw [charsLe, if_pos h] at hab
        rw [charsLe, if_pos h.symm] at hba
        rw [char_toNat_inj c d h, ih ds hab hba]
      · rw [charsLe, if_neg h] at hab
        rw [charsLe, if_neg (fun he => h he.symm)] at hba
        simp only [decide_eq_true_eq] at hab hba
        exact absurd (Nat.lt_trans hab hba) (Nat.lt_irrefl _)

theorem charsLe_trans (a b c : List Char) (hab : charsLe a b = true)
    (hbc : charsLe b c = true) : charsLe a c = true := by
  induction a generalizing b c with
  | nil => rfl
  | cons x xs ih =>
    cases b with
    | nil => exact absurd hab (by rw [charsLe]; simp)
    | cons y ys =>
      cases c with
      | nil => exact absurd hbc (by rw [charsLe]; simp)
      | cons z zs =>
        by_cases hxy : x.toNat = y.toNat
        · rw [charsLe, if_pos hxy] at hab
          by_cases hyz : y.toNat = z.toNat
          · rw [charsLe, if_pos hyz] at hbc
            rw [charsLe, if_pos (hxy.trans hyz)]
            exact ih ys zs hab hbc
          · rw [charsLe, if_neg hyz] at hbc
            simp only [decide_eq_true_eq] at hbc
            rw [charsLe, if_neg (fun he => hyz (hxy ▸ he))]
            simp only [decide_eq_true_eq]
            exact hxy ▸ hbc
        · rw [charsLe, if_neg hxy] at hab
          simp only [decide_eq_true_eq] at hab
          by_cases hyz : y.toNat = z.toNat
          · rw [charsLe, if_neg (fun he => hxy (hyz ▸ he)), ]
            simp only [decide_eq_true_eq]
            exact hyz ▸ hab
          · rw [charsLe, if_neg hyz] at hbc
            simp only [decide_eq_true_eq] at hbc
            have hxz := Nat.lt_trans hab hbc
            rw [charsLe, if_neg (Nat.ne_of_lt hxz)]
            simpa using hxz

theorem strLe_total (a b : String) : strLe a b = true ∨ strLe b a = true :=
  charsLe_total a.data b.data

theorem strLe_antisymm (a b : String) (hab : strLe a b = true) (hba : strLe b a = true) :
    a = b := string_data_inj a b (charsLe_antisymm a.data b.data hab hba)

theorem strLe_trans (a b c : String) (hab : strLe a b = true) (hbc : strLe b c = true) :
    strLe a c = true := charsLe_trans a.data b.data c.data hab hbc

theorem insertEntry_comm_aux (x y : String × Value) (l : List (String × Value))
    (hxy : strLe x.1 y.1 = true) (hyx : strLe y.1 x.1 = false) :
    insertEntry x (insertEntry y l) = insertEntry y (insertEntry x l) := by
  induction l with
  | nil =>
    simp only [insertEntry, if_pos hxy]
    rw [if_neg (by rw [hyx]; exact Bool.false_ne_true)]
  | cons z l ih =>
    by_cases hyz : strLe y.1 z.1 = true
    · have hxz : strLe x.1 z.1 = true := strLe_trans _ _ _ hxy hyz
      rw [insertEntry, if_pos hyz, insertEntry, if_pos hxy,
        insertEntry, if_pos hxz, insertEntry,
        if_neg (by rw [hyx]; exact Bool.false_ne_true), insertEntry, if_pos hyz]
    · rw [insertEntry, if_neg hyz, insertEntry]
      by_cases hxz : strLe x.1 z.1 = true
      · rw [if_pos hxz, insertEntry, if_pos hxz, insertEntry,
          if_neg (by rw [hyx]; exact Bool.false_ne_true), insertEntry, if_neg hyz]
      · rw [if_neg hxz, insertEntry, if_neg hxz, insertEntry, if_neg hyz, ih]

theorem insertEntry_comm (x y : String × Value) (l : List (String × Value))
    (hxy : x.1 ≠ y.1) :
    insertEntry x (insertEntry y l) = insertEntry y (insertEntry x l) := by
  rcases strLe_total x.1 y.1 with h | h
  · have hyx : strLe y.1 x.1 = false := by
      cases hyx : strLe y.1 x.1 with
      | false => rfl
      | true => exact absurd (strLe_antisymm _ _ h hyx) hxy
    exact insertEntry_comm_aux x y l h hyx
  · have hxyf : strLe x.1 y.1 = false := by
      cases hxyf : strLe x.1 y.1 with
      | false => rfl
      | true => exact absurd (strLe_antisymm _ _ hxyf h) hxy
    exact (insertEntry_comm_aux y x l h hxyf).symm

theorem sortEntries_congr {l₁ l₂ : List (String × Value)} (h : l₁.Perm l₂) :
    (l₁.map Prod.fst).Nodup → sortEntries l₁ = sortEntries l₂ := by
  induction h with
  | nil => intro _; rfl
  | cons x h ih =>
    intro hn
    rw [List.map_cons, List.nodup_cons] at hn
    rw [sortEntries, sortEntries, ih hn.2]
  | swap x y l =>
    intro hn
    rw [List.map_cons, List.map_cons, List.nodup_cons] at hn
    have hxy : y.1 ≠ x.1 := by
      intro he
      exact hn.1 (he ▸ List.mem_cons_self _ _)
    rw [sortEntries, sortEntries, sortEntries, sortEntries]
    exact insertEntry_comm y x (sortEntries l) hxy
  | trans h₁ h₂ ih₁ ih₂ =>
    intro hn
    rw [ih₁ hn, ih₂ ((List.Perm.nodup_iff (h₁.map Prod.fst)).mp hn)]

theorem canonO_eq_map (e : List (String × Value)) :
    canonO e = e.map (fun kv => (kv.1, canonValue kv.2)) := by
  induction e with
  | nil => rfl
  | cons kv es ih => rw [canonO, List.map_cons, ih]

theorem hash_value_obj_perm (e₁ e₂ : List (String × Value)) (h : e₁.Perm e₂)
    (hn : (e₁.map Prod.fst).Nodup) : hash_value (.obj e₁) = hash_value (.obj e₂) := by
  have hc : canonValue (.obj e₁) = canonValue (.obj e₂) := by
    rw [canonValue, canonValue]
    have hperm : (canonO e₁).Perm (canonO e₂) := by
      rw [canonO_eq_map, canonO_eq_map]
      exact h.map _
    have hnod : ((canonO e₁).map Prod.fst).Nodup := by
      rw [canonO_eq_map, List.map_map]
      exact hn
    rw [sortEntries_congr hperm hnod]
  rw [hash_value, hash_value, hashBytes, hashBytes, hc]

/-- C8: the structural hash of an object is independent of entry order —
concretely on the spec's example and in general for any permutation of an
object's (unique-key) entries, and more generally any two trees with the
same canonical (recursively key-sorted) form hash equal — while array
hashing is order-sensitive: the spec's example arrays hash differently. -/
theorem C8_hash_order_independence :
    hash_value (.obj [("a", .num 1), ("b", .num 2)]) =
      hash_value (.obj [("b", .num 2), ("a", .num 1)])
    ∧ hash_value (.arr [.num 1, .num 2]) ≠ hash_value (.arr [.num 2, .num 1])
    ∧ (∀ v w : Value, canonValue v = canonValue w → hash_value v = hash_value w)
    ∧ (∀ e₁ e₂ : List (String × Value), e₁.Perm e₂ → (e₁.map Prod.fst).Nodup →
        hash_value (.obj e₁) = hash_value (.obj e₂)) := by
  refine ⟨by rfl, by decide, ?_, hash_value_obj_perm⟩
  intro v w hc
  rw [hash_value, hash_value, hashBytes, hashBytes, hc]

/-- Witness for C8's general parts at concrete trees: a two-entry object
against its reversal (via the permutation part), and two nested trees whose
canonical forms coincide. -/
theorem C8_witness :
    ([("x", Value.null), ("y", Value.bool true)] :
        List (String × Value)).Perm [("y", Value.bool true), ("x", Value.null)]
    ∧ (([("x", Value.null), ("y", Value.bool true)] :
        List (String × Value)).map Prod.fst).Nodup
    ∧ hash_value (.obj [("x", Value.null), ("y", Value.bool true)]) =
        hash_value (.obj [("y", Value.bool true), ("x", Value.null)])
    ∧ canonValue (.obj [("b", .num 2), ("a", .arr [.num 1])]) =
        canonValue (.obj [("a", .arr [.num 1]), ("b", .num 2)])
    ∧ hash_value (.obj [("b", .num 2), ("a", .arr [.num 1])]) =
        hash_value (.obj [("a", .arr [.num 1]), ("b", .num 2)]) := by
  refine ⟨List.Perm.swap _ _ _, by decide, ?_, by rfl, ?_⟩
  · exact C8_hash_order_independence.2.2.2 _ _ (List.Perm.swap _ _ _) (by decide)
  · exact C8_hash_order_independence.2.2.1 _ _ (by rfl)

/-! ### Round trip, part 1: decimal digits -/

theorem toNat_ofNat_valid (m : Nat) (h : m < 55296) : (Char.ofNat m).toNat = m := by
  rw [Char.ofNat]
  rw [dif_pos (Or.inl h)]
  rw [Char.ofNatAux]
  show (UInt32.ofNatCore m _).toNat = m
  rfl

theorem digitChar_toNat (n : Nat) (h : n < 10) : (digitChar n).toNat = 48 + n :=
  toNat_ofNat_valid (48 + n) (by omega)

theorem digitChar_isDigit (n : Nat) (h : n < 10) : isDigitChar (digitChar n) = true := by
  rw [isDigitChar, digitChar_toNat n h]
  simp only [Bool.and_eq_true, decide_eq_true_eq]
  omega

theorem natToCharsAux_append (fuel n : Nat) (acc : List Char) :
    natToCharsAux fuel n acc = natToCharsAux fuel n [] ++ acc := by
  induction fuel generalizing n acc with
  | zero => rfl
  | succ f ih =>
    rw [natToCharsAux, natToCharsAux]
    by_cases h : n < 10
    · rw [if_pos h, if_pos h]
      rfl
    · rw [if_neg h, if_neg h, ih (n / 10) (digitChar (n % 10) :: acc),
        ih (n / 10) [digitChar (n % 10)], List.append_assoc]
      rfl

theorem natToCharsAux_fuel (fuel n : Nat) (h : n < fuel) :
    natToCharsAux fuel n [] = natToChars n := by
  induction n using Nat.strong_induction_on generalizing fuel with
  | _ n ih =>
    cases fuel with
    | zero => omega
    | succ f =>
      by_cases h10 : n < 10
      · rw [natToCharsAux, if_pos h10, natToChars, natToCharsAux, if_pos h10]
      · have hd : n / 10 < n := Nat.div_lt_self (by omega) (by omega)
        rw [natToCharsAux, if_neg h10,
          natToCharsAux_append f (n / 10) [digitChar (n % 10)]]
        rw [natToChars, natToCharsAux, if_neg h10,
          natToCharsAux_append n (n / 10) [digitChar (n % 10)]]
        have hf : n / 10 < f := by omega
        rw [ih (n / 10) hd f hf, ih (n / 10) hd n (by omega)]

theorem natToChars_step (n : Nat) (h : 10 ≤ n) :
    natToChars n = natToChars (n / 10) ++ [digitChar (n % 10)] := by
  have hd : n / 10 < n := Nat.div_lt_self (by omega) (by omega)
  rw [natToChars, natToCharsAux, if_neg (by omega),
    natToCharsAux_append n (n / 10) [digitChar (n % 10)],
    natToCharsAux_fuel n (n / 10) (by omega)]

theorem natToChars_small (n : Nat) (h : n < 10) : natToChars n = [digitChar n] := by
  rw [natToChars, natToCharsAux, if_pos h]

theorem natToChars_all_digits (n : Nat) : ∀ c ∈ natToChars n, isDigitChar c = true := by
  induction n using Nat.strong_induction_on with
  | _ n ih =>
    by_cases h : n < 10
    · rw [natToChars_small n h]
      intro c hc
      simp only [List.mem_singleton] at hc
      exact hc ▸ digitChar_isDigit n h
    · rw [natToChars_step n (by omega)]
      intro c hc
      rcases List.mem_append.mp hc with h1 | h1
      · exact ih (n / 10) (Nat.div_lt_self (by omega) (by omega)) c h1
      · simp only [List.mem_singleton] at h1
        exact h1 ▸ digitChar_isDigit (n % 10) (Nat.mod_lt _ (by omega))

theorem natToChars_ne_nil (n : Nat) : natToChars n ≠ [] := by
  by_cases h : n < 10
  · rw [natToChars_small n h]; simp
  · rw [natToChars_step n (by omega)]; simp

theorem digitsToNat_append (xs : List Char) (d : Char) :
    digitsToNat (xs ++ [d]) = digitsToNat xs * 10 + (d.toNat - 48) := by
  rw [digitsToNat, digitsToNat, List.foldl_append]
  rfl

theorem digitsToNat_natToChars (n : Nat) : digitsToNat (natToChars n) = n := by
  induction n using Nat.strong_induction_on with
  | _ n ih =>
    by_cases h : n < 10
    · rw [natToChars_small n h, digitsToNat]
      simp only [List.foldl_cons, List.foldl_nil]
      rw [digitChar_toNat n h]
      omega
    · rw [natToChars_step n (by omega), digitsToNat_append,
        ih (n / 10) (Nat.div_lt_self (by omega) (by omega)),
        digitChar_toNat (n % 10) (Nat.mod_lt _ (by omega))]
      omega

theorem natToChars_head_ne_zero (n : Nat) (h : 1 ≤ n) :
    ∀ c, (natToChars n).head? = some c → c.toNat ≠ 48 := by
  induction n using Nat.strong_induction_on with
  | _ n ih =>
    intro c hc
    by_cases h10 : n < 10
    · rw [natToChars_small n h10] at hc
      simp only [List.head?_cons, Option.some_inj] at hc
      rw [← hc, digitChar_toNat n h10]
      omega
    · rw [natToChars_step n (by omega)] at hc
      cases hh : natToChars (n / 10) with
      | nil => exact absurd hh (natToChars_ne_nil _)
      | cons d ds =>
        rw [hh] at hc
        simp only [List.cons_append, List.head?_cons, Option.some_inj] at hc
        have := ih (n / 10) (Nat.div_lt_self (by omega) (by omega))
          (Nat.one_le_div_iff (by omega) |>.mpr (by omega)) d
        rw [hh] at this
        exact hc ▸ this (by simp)

/-- Heads of a list that does not continue with a digit. -/
def headNotDigit (rest : List Char) : Prop :=
  ∀ c, rest.head? = some c → isDigitChar c = false

theorem takeWhile_digits_append (xs rest : List Char)
    (hall : ∀ c ∈ xs, isDigitChar c = true) (hrest : headNotDigit rest) :
    (xs ++ rest).takeWhile isDigitChar = xs ∧ (xs ++ rest).dropWhile isDigitChar = rest := by
  induction xs with
  | nil =>
    simp only [List.nil_append]
    cases rest with
    | nil => exact ⟨rfl, rfl⟩
    | cons c cs =>
      have := hrest c (by simp)
      rw [List.takeWhile_cons, List.dropWhile_cons, this]
      exact ⟨rfl, rfl⟩
  | cons x xs ih =>
    have hx := hall x (by simp)
    rw [List.cons_append, List.takeWhile_cons, List.dropWhile_cons, hx]
    have := ih (fun c hc => hall c (by simp [hc]))
    simp only [if_true]
    exact ⟨by rw [this.1], this.2⟩

theorem parseNatDigits_rt (n : Nat) (rest : List Char) (hrest : headNotDigit rest) :
    parseNatDigits (natToChars n ++ rest) = some (n, rest) := by
  have hsplit := takeWhile_digits_append (natToChars n) rest (natToChars_all_digits n) hrest
  rw [parseNatDigits, hsplit.1]
  rw [if_neg (by simp [natToChars_ne_nil n])]
  have hlen : (natToChars n ++ rest).drop (natToChars n).length = rest :=
    List.drop_left _ _
  rw [if_neg ?hzero, digitsToNat_natToChars, hlen]
  case hzero =>
    rintro ⟨h1, h2⟩
    by_cases hn : n = 0
    · subst hn
      rw [natToChars_small 0 (by omega)] at h2
      simp at h2
    · cases hh : (natToChars n).head? with
      | none =>
        rw [hh] at h1
        exact absurd h1 (by simp)
      | some c =>
        rw [hh] at h1
        have := natToChars_head_ne_zero n (by omega) c hh
        simp only [Option.some_inj] at h1
        exact this (by rw [h1]; decide)

theorem intToChars_rt (i : Int) (rest : List Char) (hrest : headNotDigit rest) :
    parseNumFrom (intToChars i ++ rest) = some (.num i, rest) := by
  by_cases hneg : i < 0
  · rw [intToChars, if_pos hneg, List.cons_append, parseNumFrom, if_pos rfl,
      parseNatDigits_rt (-i).toNat rest hrest]
    show some (Value.num (-(((-i).toNat : Nat) : Int)), rest) = some (Value.num i, rest)
    have hval : -(((-i).toNat : Nat) : Int) = i := by
      have h2 : ((-i).toNat : Int) = -i := Int.toNat_of_nonneg (by omega)
      omega
    rw [hval]
  · rw [intToChars, if_neg hneg]
    have hrt := parseNatDigits_rt i.toNat rest hrest
    obtain ⟨c, cs, hh⟩ : ∃ c cs, natToChars i.toNat = c :: cs := by
      cases hh : natToChars i.toNat with
      | nil => exact absurd hh (natToChars_ne_nil _)
      | cons c cs => exact ⟨c, cs, rfl⟩
    have hcd : isDigitChar c = true := natToChars_all_digits i.toNat c (by rw [hh]; simp)
    have hcne : ¬c = '-' := by
      intro he
      rw [he] at hcd
      exact absurd hcd (by decide)
    rw [hh] at hrt ⊢
    rw [List.cons_append] at hrt ⊢
    rw [parseNumFrom, if_neg hcne, hrt]
    show some (Value.num ((i.toNat : Nat) : Int), rest) = some (Value.num i, rest)
    rw [Int.toNat_of_nonneg (by omega)]

/-! ### Round trip, part 2: whitespace and strings -/

theorem skipWs_append_ws (xs rest : List Char) (h : ∀ c ∈ xs, isWsChar c = true) :
    skipWs (xs ++ rest) = skipWs rest := by
  induction xs with
  | nil => rfl
  | cons x xs ih =>
    rw [List.cons_append, skipWs, if_pos (h x (by simp))]
    exact ih (fun c hc => h c (by simp [hc]))

theorem skipWs_eq_self (rest : List Char)
    (h : ∀ c, rest.head? = some c → isWsChar c = false) : skipWs rest = rest := by
  cases rest with
  | nil => rfl
  | cons c cs =>
    rw [skipWs, if_neg]
    rw [h c (by simp)]
    simp

theorem nlIndent_ws (k : Nat) : ∀ c ∈ nlIndent k, isWsChar c = true := by
  intro c hc
  rw [nlIndent] at hc
  rcases List.mem_cons.mp hc with h | h
  · rw [h]; rfl
  · rw [List.eq_of_mem_replicate h]; rfl

theorem hexVal_hexDigitChar : ∀ k, k < 16 → hexVal (hexDigitChar k) = some k := by decide

theorem escBody_cons (c : Char) (cs : List Char) :
    escBody (c :: cs) = escChar c ++ escBody cs := by
  simp [escBody]

/-- One produced character per unit of fuel: parsing the escape of `c`
prepends `c` and recurses. -/
theorem parseStrBody_escChar (c : Char) (X : List Char) (f : Nat) :
    parseStrBody (f + 1) (escChar c ++ X) = strCons c (parseStrBody f X) := by
  by_cases h1 : c = '"'
  · subst h1
    simp [escChar, parseStrBody]
  · by_cases h2 : c = '\\'
    · subst h2
      simp [escChar, parseStrBody]
    · by_cases h3 : c = Char.ofNat 8
      · subst h3
        simp [escChar, parseStrBody]
      · by_cases h4 : c = Char.ofNat 9
        · subst h4
          simp [escChar, parseStrBody]
        · by_cases h5 : c = Char.ofNat 10
          · subst h5
            simp [escChar, parseStrBody]
          · by_cases h6 : c = Char.ofNat 12
            · subst h6
              simp [escChar, parseStrBody]
            · by_cases h7 : c = Char.ofNat 13
              · subst h7
                simp [escChar, parseStrBody]
              · by_cases h8 : c.toNat < 32
                · rw [escChar, if_neg h1, if_neg h2, if_neg h3, if_neg h4, if_neg h5,
                    if_neg h6, if_neg h7, if_pos h8]
                  have hdiv : c.toNat / 16 < 16 := by omega
                  have hmod : c.toNat % 16 < 16 := Nat.mod_lt _ (by omega)
                  have hval : ((0 * 16 + 0) * 16 + c.toNat / 16) * 16 + c.toNat % 16 =
                      c.toNat := by omega
                  simp only [List.cons_append, List.nil_append, parseStrBody]
                  simp only [Char.reduceEq, reduceIte]
                  simp only [hex4, hexVal_hexDigitChar _ hdiv, hexVal_hexDigitChar _ hmod,
                    show hexVal '0' = some 0 from rfl]
                  simp only [hval]
                  rw [if_pos (Or.inl (show c.toNat < 55296 by omega)), Char.ofNat_toNat]
                · rw [escChar, if_neg h1, if_neg h2, if_neg h3, if_neg h4, if_neg h5,
                    if_neg h6, if_neg h7, if_neg h8]
                  simp only [List.cons_append, List.nil_append, parseStrBody]
                  rw [if_neg h1, if_neg h2, if_neg h8]

theorem escRT (cs : List Char) : ∀ (rest : List Char) (fuel : Nat),
    (escBody cs).length < fuel →
    parseStrBody fuel (escBody cs ++ '"' :: rest) = some (cs, rest) := by
  induction cs with
  | nil =>
    intro rest fuel hf
    cases fuel with
    | zero => simp [escBody] at hf
    | succ f => simp [escBody, parseStrBody]
  | cons c cs ih =>
    intro rest fuel hf
    rw [escBody_cons] at hf ⊢
    cases fuel with
    | zero => omega
    | succ f =>
      rw [List.append_assoc, parseStrBody_escChar c _ f]
      have hlen : (escBody cs).length < f := by
        have h1 : 1 ≤ (escChar c).length := by
          rw [escChar]
          repeat' split
          all_goals simp
        rw [List.length_append] at hf
        omega
      rw [ih rest f hlen]
      rfl

/-! ### Round trip, part 3: serializer heads and whitespace transparency -/

theorem vsize_pos (v : Value) : 1 ≤ vsize v := by
  cases v <;> simp only [vsize] <;> omega

theorem vsizeL_mem (l : List Value) (u : Value) (h : u ∈ l) : vsize u ≤ vsizeL l := by
  induction l with
  | nil => simp at h
  | cons v vs ih =>
    rcases List.mem_cons.mp h with h1 | h1
    · rw [h1, vsizeL]; omega
    · have := ih h1
      rw [vsizeL]; omega

theorem vsizeO_mem (e : List (String × Value)) (a : String) (u : Value)
    (h : (a, u) ∈ e) : vsize u ≤ vsizeO e := by
  induction e with
  | nil => simp at h
  | cons kv es ih =>
    rcases List.mem_cons.mp h with h1 | h1
    · cases kv with
      | mk b w =>
        cases h1
        rw [vsizeO]; omega
    · have := ih h1
      cases kv with
      | mk b w => rw [vsizeO]; omega

theorem char_props_of_toNat (c : Char) (h1 : 33 ≤ c.toNat) (h2 : c.toNat ≤ 125)
    (h3 : c.toNat ≠ 93) (h4 : c.toNat ≠ 125) :
    isWsChar c = false ∧ ¬c = ']' ∧ ¬c = rbrace := by
  refine ⟨?_, ?_, ?_⟩
  · rw [isWsChar]
    simp only [Bool.or_eq_false_iff, decide_eq_false_iff_not]
    refine ⟨⟨⟨?_, ?_⟩, ?_⟩, ?_⟩ <;> intro he <;> rw [he] at h1 <;> exact absurd h1 (by decide)
  · intro he
    rw [he] at h3
    exact h3 (by decide)
  · intro he
    rw [he] at h4
    exact h4 (by decide)

theorem serValue_head (k : Nat) (v : Value) :
    ∃ c cs, serValue k v = c :: cs ∧ isWsChar c = false ∧ ¬c = ']' ∧ ¬c = rbrace := by
  cases v with
  | null => exact ⟨'n', _, rfl, by decide, by decide, by decide⟩
  | bool b =>
    cases b
    · exact ⟨'f', _, rfl, by decide, by decide, by decide⟩
    · exact ⟨'t', _, rfl, by decide, by decide, by decide⟩
  | num i =>
    by_cases hneg : i < 0
    · refine ⟨'-', natToChars (-i).toNat, ?_, by decide, by decide, by decide⟩
      show intToChars i = _
      rw [intToChars, if_pos hneg]
    · obtain ⟨c, cs, hh⟩ : ∃ c cs, natToChars i.toNat = c :: cs := by
        cases hh : natToChars i.toNat with
        | nil => exact absurd hh (natToChars_ne_nil _)
        | cons c cs => exact ⟨c, cs, rfl⟩
      have hcd : isDigitChar c = true := natToChars_all_digits i.toNat c (by rw [hh]; simp)
      rw [isDigitChar, Bool.and_eq_true, decide_eq_true_eq, decide_eq_true_eq] at hcd
      refine ⟨c, cs, ?_, ?_⟩
      · show intToChars i = _
        rw [intToChars, if_neg hneg, hh]
      · exact char_props_of_toNat c (by omega) (by omega) (by omega) (by omega)
  | str s => exact ⟨'"', _, rfl, by decide, by decide, by decide⟩
  | arr l =>
    cases l with
    | nil => exact ⟨'[', _, rfl, by decide, by decide, by decide⟩
    | cons v vs => exact ⟨'[', _, rfl, by decide, by decide, by decide⟩
  | obj e =>
    cases e with
    | nil => exact ⟨lbrace, _, rfl, by decide, by decide, by decide⟩
    | cons kv es => exact ⟨lbrace, _, rfl, by decide, by decide, by decide⟩

theorem parseValue_ws (fuel : Nat) (ws X : List Char) (h : ∀ c ∈ ws, isWsChar c = true) :
    parseValue fuel (ws ++ X) = parseValue fuel X := by
  cases fuel with
  | zero => rfl
  | succ f => rw [parseValue, parseValue, skipWs_append_ws ws X h]

theorem parseArrItems_ws (fuel : Nat) (ws X : List Char) (acc : List Value)
    (h : ∀ c ∈ ws, isWsChar c = true) :
    parseArrItems fuel (ws ++ X) acc = parseArrItems fuel X acc := by
  cases fuel with
  | zero => rfl
  | succ f => rw [parseArrItems, parseArrItems, parseValue_ws f ws X h]

/-- The round-trip property of one value. -/
def RTp (v : Value) : Prop :=
  ∀ (k : Nat) (rest : List Char) (fuel : Nat), headNotDigit rest →
    2 * (serValue k v ++ rest).length + 2 ≤ fuel →
    parseValue fuel (serValue k v ++ rest) = some (v, rest)

theorem headNotDigit_cons (c : Char) (rest : List Char) (h : isDigitChar c = false) :
    headNotDigit (c :: rest) := by
  intro d hd
  simp only [List.head?_cons, Option.some_inj] at hd
  rw [← hd]
  exact h

theorem headNotDigit_nlIndent (k : Nat) (X : List Char) : headNotDigit (nlIndent k ++ X) := by
  rw [nlIndent, List.cons_append]
  exact headNotDigit_cons _ _ (by decide)

theorem skipWs_nlIndent (k : Nat) (c : Char) (X : List Char) (hc : isWsChar c = false) :
    skipWs (nlIndent k ++ c :: X) = c :: X := by
  rw [skipWs_append_ws _ _ (nlIndent_ws k), skipWs_eq_self]
  intro d hd
  simp only [List.head?_cons, Option.some_inj] at hd
  rw [← hd]
  exact hc

theorem parseArrItems_rt (vs : List Value) : ∀ (v : Value), (∀ u ∈ v :: vs, RTp u) →
    ∀ (acc : List Value) (k : Nat) (rest : List Char) (fuel : Nat),
    2 * (serValue (k + 1) v ++ (serArrRest (k + 1) vs ++ (nlIndent k ++ ']' :: rest))).length
        + 3 ≤ fuel →
    parseArrItems fuel
        (serValue (k + 1) v ++ (serArrRest (k + 1) vs ++ (nlIndent k ++ ']' :: rest))) acc =
      some (acc ++ v :: vs, rest) := by
  induction vs with
  | nil =>
    intro v hRT acc k rest fuel hfuel
    simp only [serArrRest, List.nil_append] at hfuel ⊢
    cases fuel with
    | zero => exact absurd hfuel (by omega)
    | succ f =>
      have hr := hRT v (List.mem_cons_self _ _) (k + 1) (nlIndent k ++ ']' :: rest) f
        (headNotDigit_nlIndent k _) (by
          rw [List.length_append] at hfuel ⊢
          omega)
      simp only [parseArrItems, hr]
      rw [skipWs_nlIndent k ']' rest (by decide)]
      rfl
  | cons u vs ih =>
    intro v hRT acc k rest fuel hfuel
    cases fuel with
    | zero => exact absurd hfuel (by omega)
    | succ f =>
      have hshape : serArrRest (k + 1) (u :: vs) ++ (nlIndent k ++ ']' :: rest) =
          ',' :: (nlIndent (k + 1) ++
            (serValue (k + 1) u ++ (serArrRest (k + 1) vs ++ (nlIndent k ++ ']' :: rest)))) := by
        rw [serArrRest]
        simp [List.append_assoc]
      rw [hshape] at hfuel ⊢
      have hr := hRT v (List.mem_cons_self _ _) (k + 1)
        (',' :: (nlIndent (k + 1) ++
          (serValue (k + 1) u ++ (serArrRest (k + 1) vs ++ (nlIndent k ++ ']' :: rest))))) f
        (headNotDigit_cons _ _ (by decide)) (by
          simp only [List.length_append, List.length_cons] at hfuel ⊢
          omega)
      simp only [parseArrItems, hr]
      rw [skipWs_eq_self _ (fun c hc => by
        simp only [List.head?_cons, Option.some_inj] at hc
        rw [← hc]
        decide)]
      show parseArrItems f (nlIndent (k + 1) ++
        (serValue (k + 1) u ++ (serArrRest (k + 1) vs ++ (nlIndent k ++ ']' :: rest))))
        (acc ++ [v]) = _
      rw [parseArrItems_ws f _ _ _ (nlIndent_ws (k + 1))]
      rw [ih u (fun x hx => hRT x (by
        rcases List.mem_cons.mp hx with h1 | h1
        · rw [h1]; simp
        · simp [h1])) (acc ++ [v]) k rest f (by
          simp only [List.length_append, List.length_cons, List.length_replicate,
            nlIndent] at hfuel ⊢
          omega)]
      simp

theorem serEntry_shape (k : Nat) (key : String) (v : Value) (X : List Char) :
    serEntry k (key, v) ++ X =
      '"' :: (escBody key.data ++ '"' :: ':' :: ' ' :: (serValue k v ++ X)) := by
  rw [serEntry, quoteChars]
  simp [List.append_assoc]

theorem headNotDigit_serObjRest (k j : Nat) (es : List (String × Value)) (rest : List Char) :
    headNotDigit (serObjRest k es ++ (nlIndent j ++ rbrace :: rest)) := by
  cases es with
  | nil =>
    rw [serObjRest, List.nil_append]
    exact headNotDigit_nlIndent j _
  | cons e es =>
    rw [serObjRest, List.cons_append]
    exact headNotDigit_cons _ _ (by decide)

theorem parseObjItems_rt (es : List (String × Value)) : ∀ (key : String) (v : Value),
    (∀ u ∈ (key, v) :: es, RTp u.2) →
    ∀ (acc : List (String × Value)) (k : Nat) (rest : List Char) (fuel : Nat),
    2 * (serEntry (k + 1) (key, v) ++
        (serObjRest (k + 1) es ++ (nlIndent k ++ rbrace :: rest))).length + 3 ≤ fuel →
    parseObjItems fuel
        (serEntry (k + 1) (key, v) ++
          (serObjRest (k + 1) es ++ (nlIndent k ++ rbrace :: rest))) acc =
      some (acc ++ (key, v) :: es, rest) := by
  induction es with
  | nil =>
    intro key v hRT acc k rest fuel hfuel
    rw [serEntry_shape] at hfuel ⊢
    simp only [serObjRest, List.nil_append] at hfuel ⊢
    cases fuel with
    | zero => exact absurd hfuel (by omega)
    | succ f =>
      have hstr := escRT key.data (':' :: ' ' :: (serValue (k + 1) v ++
        (nlIndent k ++ rbrace :: rest))) f (by
          simp only [List.length_cons, List.length_append] at hfuel ⊢
          omega)
      simp only [parseObjItems, if_pos rfl, hstr]
      rw [skipWs_eq_self _ (fun c hc => by
        simp only [List.head?_cons, Option.some_inj] at hc
        rw [← hc]
        decide)]
      have hv := hRT (key, v) (List.mem_cons_self _ _) (k + 1)
        (nlIndent k ++ rbrace :: rest) f (headNotDigit_nlIndent k _) (by
          simp only [List.length_cons, List.length_append] at hfuel ⊢
          omega)
      show (match parseValue f (' ' :: (serValue (k + 1) v ++ (nlIndent k ++ rbrace :: rest)))
          with
        | some (w, rest4) =>
          match skipWs rest4 with
          | [] => none
          | d :: rest5 =>
            if d = ',' then parseObjItems f (skipWs rest5) (acc ++ [(⟨key.data⟩, w)])
            else if d = rbrace then some (acc ++ [(⟨key.data⟩, w)], rest5)
            else none
        | none => none) = some (acc ++ [(key, v)], rest)
      rw [show (' ' :: (serValue (k + 1) v ++ (nlIndent k ++ rbrace :: rest))) =
        [' '] ++ (serValue (k + 1) v ++ (nlIndent k ++ rbrace :: rest)) from rfl]
      rw [parseValue_ws f [' '] _ (by decide), hv]
      show (match skipWs (nlIndent k ++ rbrace :: rest) with
        | [] => none
        | d :: rest5 =>
          if d = ',' then parseObjItems f (skipWs rest5) (acc ++ [(⟨key.data⟩, v)])
          else if d = rbrace then some (acc ++ [(⟨key.data⟩, v)], rest5)
          else none) = some (acc ++ [(key, v)], rest)
      rw [skipWs_nlIndent k rbrace rest (by decide)]
      show (if rbrace = ',' then _
        else if rbrace = rbrace then some (acc ++ [(⟨key.data⟩, v)], rest)
        else none) = some (acc ++ [(key, v)], rest)
      rw [if_neg (by decide), if_pos rfl]
  | cons e' es ih =>
    intro key v hRT acc k rest fuel hfuel
    rw [serEntry_shape] at hfuel ⊢
    have hshape : serObjRest (k + 1) (e' :: es) ++ (nlIndent k ++ rbrace :: rest) =
        ',' :: (nlIndent (k + 1) ++
          (serEntry (k + 1) e' ++ (serObjRest (k + 1) es ++ (nlIndent k ++ rbrace :: rest)))) := by
      rw [serObjRest]
      simp [List.append_assoc]
    rw [hshape] at hfuel ⊢
    cases fuel with
    | zero => exact absurd hfuel (by omega)
    | succ f =>
      have hstr := escRT key.data (':' :: ' ' :: (serValue (k + 1) v ++
        (',' :: (nlIndent (k + 1) ++ (serEntry (k + 1) e' ++
          (serObjRest (k + 1) es ++ (nlIndent k ++ rbrace :: rest))))))) f (by
          simp only [List.length_cons, List.length_append] at hfuel ⊢
          omega)
      simp only [parseObjItems, if_pos rfl, hstr]
      rw [skipWs_eq_self _ (fun c hc => by
        simp only [List.head?_cons, Option.some_inj] at hc
        rw [← hc]
        decide)]
      have hv := hRT (key, v) (List.mem_cons_self _ _) (k + 1)
        (',' :: (nlIndent (k + 1) ++ (serEntry (k + 1) e' ++
          (serObjRest (k + 1) es ++ (nlIndent k ++ rbrace :: rest))))) f
        (headNotDigit_cons _ _ (by decide)) (by
          simp only [List.length_cons, List.length_append] at hfuel ⊢
          omega)
      show (match parseValue f (' ' :: (serValue (k + 1) v ++
          (',' :: (nlIndent (k + 1) ++ (serEntry (k + 1) e' ++
            (serObjRest (k + 1) es ++ (nlIndent k ++ rbrace :: rest))))))) with
        | some (w, rest4) =>
          match skipWs rest4 with
          | [] => none
          | d :: rest5 =>
            if d = ',' then parseObjItems f (skipWs rest5) (acc ++ [(⟨key.data⟩, w)])
            else if d = rbrace then some (acc ++ [(⟨key.data⟩, w)], rest5)
            else none
        | none => none) = some (acc ++ (key, v) :: e' :: es, rest)
      rw [show (' ' :: (serValue (k + 1) v ++ (',' :: (nlIndent (k + 1) ++
          (serEntry (k + 1) e' ++ (serObjRest (k + 1) es ++ (nlIndent k ++ rbrace :: rest))))))) =
        [' '] ++ (serValue (k + 1) v ++ (',' :: (nlIndent (k + 1) ++
          (serEntry (k + 1) e' ++ (serObjRest (k + 1) es ++
            (nlIndent k ++ rbrace :: rest)))))) from rfl]
      rw [parseValue_ws f [' '] _ (by decide), hv]
      show (match skipWs (',' :: (nlIndent (k + 1) ++ (serEntry (k + 1) e' ++
          (serObjRest (k + 1) es ++ (nlIndent k ++ rbrace :: rest))))) with
        | [] => none
        | d :: rest5 =>
          if d = ',' then parseObjItems f (skipWs rest5) (acc ++ [(⟨key.data⟩, v)])
          else if d = rbrace then some (acc ++ [(⟨key.data⟩, v)], rest5)
          else none) = some (acc ++ (key, v) :: e' :: es, rest)
      rw [skipWs_eq_self _ (fun c hc => by
        simp only [List.head?_cons, Option.some_inj] at hc
        rw [← hc]
        decide)]
      show (if (',' : Char) = ',' then
          parseObjItems f (skipWs (nlIndent (k + 1) ++ (serEntry (k + 1) e' ++
            (serObjRest (k + 1) es ++ (nlIndent k ++ rbrace :: rest)))))
            (acc ++ [(⟨key.data⟩, v)])
        else _) = some (acc ++ (key, v) :: e' :: es, rest)
      rw [if_pos rfl]
      obtain ⟨key', v'⟩ := e'
      rw [show serEntry (k + 1) (key', v') ++
          (serObjRest (k + 1) es ++ (nlIndent k ++ rbrace :: rest)) =
        '"' :: (escBody key'.data ++ '"' :: ':' :: ' ' :: (serValue (k + 1) v' ++
          (serObjRest (k + 1) es ++ (nlIndent k ++ rbrace :: rest)))) from serEntry_shape ..]
      rw [skipWs_nlIndent (k + 1) '"' _ (by decide)]
      rw [show ('"' : Char) :: (escBody key'.data ++ '"' :: ':' :: ' ' :: (serValue (k + 1) v' ++
          (serObjRest (k + 1) es ++ (nlIndent k ++ rbrace :: rest)))) =
        serEntry (k + 1) (key', v') ++
          (serObjRest (k + 1) es ++ (nlIndent k ++ rbrace :: rest)) from (serEntry_shape ..).symm]
      rw [ih key' v' (fun x hx => hRT x (by
        rcases List.mem_cons.mp hx with h1 | h1
        · rw [h1]; simp
        · simp [h1])) (acc ++ [(key, v)]) k rest f (by
          have hsl := congrArg List.length (serEntry_shape (k + 1) key' v'
            (serObjRest (k + 1) es ++ (nlIndent k ++ rbrace :: rest)))
          simp only [List.length_cons, List.length_append, nlIndent,
            List.length_replicate] at hfuel hsl ⊢
          omega)]
      simp

theorem num_head_props (c : Char) (h1 : 45 ≤ c.toNat) (h2 : c.toNat ≤ 57) :
    isWsChar c = false ∧ ¬c = lbrace ∧ ¬c = '[' ∧ ¬c = '"' ∧ ¬c = 'n' ∧ ¬c = 't' ∧
      ¬c = 'f' := by
  refine ⟨?_, ?_, ?_, ?_, ?_, ?_, ?_⟩
  · rw [isWsChar]
    simp only [Bool.or_eq_false_iff, decide_eq_false_iff_not]
    refine ⟨⟨⟨?_, ?_⟩, ?_⟩, ?_⟩ <;> intro he <;> rw [he] at h1 <;> exact absurd h1 (by decide)
  all_goals intro he <;> rw [he] at h1 h2
  · exact absurd h2 (by decide)
  · exact absurd h2 (by decide)
  · exact absurd h1 (by decide)
  · exact absurd h2 (by decide)
  · exact absurd h2 (by decide)
  · exact absurd h2 (by decide)

theorem headNotWs_cons (c : Char) (X : List Char) (hc : isWsChar c = false) :
    skipWs (c :: X) = c :: X := by
  rw [skipWs, if_neg]
  rw [hc]
  simp

theorem char_ne_lbrace (c : Char) (h : c.toNat ≠ 123) : (c = lbrace) = False :=
  eq_false (fun he => h (by rw [he]; rfl))

theorem char_ne_rbrace (c : Char) (h : c.toNat ≠ 125) : (c = rbrace) = False :=
  eq_false (fun he => h (by rw [he]; rfl))

theorem serValue_rtN : ∀ (N : Nat) (v : Value), vsize v ≤ N → RTp v := by
  intro N
  induction N with
  | zero =>
    intro v hv
    exact absurd hv (by have := vsize_pos v; omega)
  | succ N ih =>
    intro v hv k rest fuel hrest hfuel
    cases v with
    | null =>
      cases fuel with
      | zero => exact absurd hfuel (by simp [serValue])
      | succ f =>
        show parseValue (f + 1) ('n' :: 'u' :: 'l' :: 'l' :: rest) = some (.null, rest)
        have hskip := headNotWs_cons 'n' ('u' :: 'l' :: 'l' :: rest) (by decide)
        simp only [parseValue, hskip, char_ne_lbrace 'n' (by decide), Char.reduceEq, reduceIte]
        simp [expectChars, Char.reduceEq, reduceIte]
    | bool b =>
      cases fuel with
      | zero => exact absurd hfuel (by cases b <;> simp [serValue])
      | succ f =>
        cases b
        · show parseValue (f + 1) ('f' :: 'a' :: 'l' :: 's' :: 'e' :: rest) =
            some (.bool false, rest)
          have hskip := headNotWs_cons 'f' ('a' :: 'l' :: 's' :: 'e' :: rest) (by decide)
          simp only [parseValue, hskip, char_ne_lbrace 'f' (by decide), Char.reduceEq,
            reduceIte]
          simp [expectChars, Char.reduceEq, reduceIte]
        · show parseValue (f + 1) ('t' :: 'r' :: 'u' :: 'e' :: rest) =
            some (.bool true, rest)
          have hskip := headNotWs_cons 't' ('r' :: 'u' :: 'e' :: rest) (by decide)
          simp only [parseValue, hskip, char_ne_lbrace 't' (by decide), Char.reduceEq,
            reduceIte]
          simp [expectChars, Char.reduceEq, reduceIte]
    | num i =>
      obtain ⟨c, cs, hh, hw, hr1, hr2⟩ := serValue_head k (.num i)
      have hbounds : 45 ≤ c.toNat ∧ c.toNat ≤ 57 := by
        by_cases hneg : i < 0
        · have hsh : serValue k (.num i) = '-' :: natToChars (-i).toNat := by
            show intToChars i = _
            rw [intToChars, if_pos hneg]
          rw [hsh] at hh
          cases hh
          constructor <;> decide
        · have hsh : serValue k (.num i) = natToChars i.toNat := by
            show intToChars i = _
            rw [intToChars, if_neg hneg]
          rw [hsh] at hh
          have hcd := natToChars_all_digits i.toNat c (by rw [hh]; simp)
          rw [isDigitChar, Bool.and_eq_true, decide_eq_true_eq, decide_eq_true_eq] at hcd
          omega
      obtain ⟨hp1, hp2, hp3, hp4, hp5, hp6, hp7⟩ :=
        num_head_props c hbounds.1 hbounds.2
      cases fuel with
      | zero =>
        rw [hh] at hfuel
        exact absurd hfuel (by simp)
      | succ f =>
        rw [hh, List.cons_append]
        have hskip := headNotWs_cons c (cs ++ rest) hw
        simp only [parseValue, hskip]
        rw [if_neg hp2, if_neg hp3, if_neg hp4, if_neg hp5, if_neg hp6, if_neg hp7]
        rw [← List.cons_append, ← hh]
        exact intToChars_rt i rest hrest
    | str s =>
      cases fuel with
      | zero => exact absurd hfuel (by simp [serValue, quoteChars])
      | succ f =>
        show parseValue (f + 1) (quoteChars s ++ rest) = some (.str s, rest)
        rw [quoteChars]
        simp only [List.cons_append, List.append_assoc, List.singleton_append,
          List.nil_append]
        have hskip := headNotWs_cons '"' (escBody s.data ++ '"' :: rest) (by decide)
        simp only [parseValue, hskip, char_ne_lbrace '"' (by decide), Char.reduceEq,
          reduceIte]
        rw [escRT s.data rest f (by
          have hlen : (serValue k (.str s) ++ rest).length =
              (escBody s.data).length + rest.length + 2 := by
            show (quoteChars s ++ rest).length = _
            rw [quoteChars]
            simp [List.length_append]
            omega
          omega)]
    | arr l =>
      cases l with
      | nil =>
        cases fuel with
        | zero => exact absurd hfuel (by simp [serValue])
        | succ f =>
          show parseValue (f + 1) ('[' :: ']' :: rest) = some (.arr [], rest)
          have hskip := headNotWs_cons '[' (']' :: rest) (by decide)
          have hskip2 := headNotWs_cons ']' rest (by decide)
          simp only [parseValue, hskip, char_ne_lbrace '[' (by decide), Char.reduceEq,
            reduceIte]
          simp only [hskip2, char_ne_rbrace ']' (by decide), Char.reduceEq, reduceIte]
      | cons v vs =>
        have hshape : serValue k (.arr (v :: vs)) ++ rest =
            '[' :: (nlIndent (k + 1) ++ (serValue (k + 1) v ++
              (serArrRest (k + 1) vs ++ (nlIndent k ++ ']' :: rest)))) := by
          rw [serValue]
          simp [List.append_assoc]
        rw [hshape] at hfuel ⊢
        cases fuel with
        | zero => exact absurd hfuel (by simp)
        | succ f =>
          obtain ⟨c, cs, hh, hw, hr1, hr2⟩ := serValue_head (k + 1) v
          have hskip := headNotWs_cons '[' (nlIndent (k + 1) ++ (serValue (k + 1) v ++
            (serArrRest (k + 1) vs ++ (nlIndent k ++ ']' :: rest)))) (by decide)
          have hskip2 : skipWs (nlIndent (k + 1) ++ (serValue (k + 1) v ++
              (serArrRest (k + 1) vs ++ (nlIndent k ++ ']' :: rest)))) =
              c :: (cs ++ (serArrRest (k + 1) vs ++ (nlIndent k ++ ']' :: rest))) := by
            rw [hh, List.cons_append]
            exact skipWs_nlIndent (k + 1) c _ hw
          simp only [parseValue, hskip, char_ne_lbrace '[' (by decide), Char.reduceEq,
            reduceIte]
          simp only [hskip2]
          rw [if_neg hr1]
          rw [← List.cons_append, ← hh]
          have hmem : ∀ u ∈ v :: vs, RTp u := by
            intro u hu
            apply ih
            have h1 := vsizeL_mem (v :: vs) u hu
            simp only [vsize] at hv
            omega
          rw [parseArrItems_rt vs v hmem [] k rest f (by
            simp only [List.length_cons, List.length_append, nlIndent,
              List.length_replicate] at hfuel ⊢
            omega)]
          simp [arrResult]
    | obj e =>
      cases e with
      | nil =>
        cases fuel with
        | zero => exact absurd hfuel (by simp [serValue])
        | succ f =>
          show parseValue (f + 1) (lbrace :: rbrace :: rest) = some (.obj [], rest)
          have hskip := headNotWs_cons lbrace (rbrace :: rest) (by decide)
          have hskip2 := headNotWs_cons rbrace rest (by decide)
          simp only [parseValue, hskip, Char.reduceEq, reduceIte, if_pos rfl]
          simp only [hskip2, Char.reduceEq, reduceIte, if_pos rfl]
      | cons kv es =>
        obtain ⟨key, v⟩ := kv
        have hshape : serValue k (.obj ((key, v) :: es)) ++ rest =
            lbrace :: (nlIndent (k + 1) ++ (serEntry (k + 1) (key, v) ++
              (serObjRest (k + 1) es ++ (nlIndent k ++ rbrace :: rest)))) := by
          rw [serValue]
          simp [List.append_assoc]
        rw [hshape] at hfuel ⊢
        cases fuel with
        | zero => exact absurd hfuel (by simp)
        | succ f =>
          have hskip := headNotWs_cons lbrace (nlIndent (k + 1) ++ (serEntry (k + 1) (key, v) ++
            (serObjRest (k + 1) es ++ (nlIndent k ++ rbrace :: rest)))) (by decide)
          have hskip2 : skipWs (nlIndent (k + 1) ++ (serEntry (k + 1) (key, v) ++
              (serObjRest (k + 1) es ++ (nlIndent k ++ rbrace :: rest)))) =
              '"' :: (escBody key.data ++ '"' :: ':' :: ' ' :: (serValue (k + 1) v ++
                (serObjRest (k + 1) es ++ (nlIndent k ++ rbrace :: rest)))) := by
            rw [serEntry_shape]
            exact skipWs_nlIndent (k + 1) '"' _ (by decide)
          simp only [parseValue, hskip, Char.reduceEq, reduceIte, if_pos rfl]
          simp only [hskip2, char_ne_rbrace '"' (by decide), Char.reduceEq, reduceIte]
          rw [← serEntry_shape]
          have hmem : ∀ u ∈ (key, v) :: es, RTp u.2 := by
            intro u hu
            apply ih
            have h1 := vsizeO_mem ((key, v) :: es) u.1 u.2 (by
              rcases List.mem_cons.mp hu with h1 | h1
              · rw [h1]; simp
              · right
                show (u.1, u.2) ∈ es
                rw [show (u.1, u.2) = u from rfl]
                exact h1)
            simp only [vsize] at hv
            omega
          rw [parseObjItems_rt es key v hmem [] k rest f (by
            have hsl := congrArg List.length (serEntry_shape (k + 1) key v
              (serObjRest (k + 1) es ++ (nlIndent k ++ rbrace :: rest)))
            simp only [List.length_cons, List.length_append, nlIndent,
              List.length_replicate] at hfuel hsl ⊢
            omega)]
          simp [objResult]

/-- Every serialized value parses back to itself. -/
theorem serValue_rt (v : Value) : RTp v := serValue_rtN (vsize v) v (Nat.le_refl _)

/-! ### Reading back a saved file: the exact byte round trip -/

theorem map_eq_self_of_mem {α : Type} (L : List α) (f : α → α) (h : ∀ a ∈ L, f a = a) :
    L.map f = L := by
  induction L with
  | nil => rfl
  | cons a L ih =>
    rw [List.map_cons, h a (List.mem_cons_self _ _),
      ih (fun b hb => h b (List.mem_cons_of_mem _ hb))]

theorem splitOnChar_flatten (sep : Char) (cs : List Char) :
    ((splitOnChar sep cs).map (fun l => l ++ [sep])).flatten = cs ++ [sep] := by
  induction cs with
  | nil => rfl
  | cons c cs ih =>
    rw [splitOnChar]
    by_cases h : c = sep
    · rw [if_pos h, h]
      simp only [List.map_cons, List.flatten_cons, List.nil_append, ih]
      rfl
    · rw [if_neg h]
      cases hs : splitOnChar sep cs with
      | nil => exact absurd hs (splitOnChar_ne_nil sep cs)
      | cons l ls =>
        rw [hs] at ih
        simp only [List.map_cons, List.flatten_cons, List.cons_append,
          List.append_assoc] at ih ⊢
        rw [ih]

theorem splitOnChar_getLast_ne (sep : Char) (cs : List Char) (hne : cs ≠ [])
    (hlast : cs.getLast? ≠ some sep) : (splitOnChar sep cs).getLast? ≠ some [] := by
  induction cs with
  | nil => exact absurd rfl hne
  | cons c cs ih =>
    rw [splitOnChar]
    cases cs with
    | nil =>
      have hc : ¬c = sep := fun h => hlast (by simp [h])
      rw [if_neg hc]
      simp [splitOnChar]
    | cons c' cs' =>
      have hlast' : (c' :: cs').getLast? ≠ some sep := by
        rwa [List.getLast?_cons_cons] at hlast
      have ihr := ih (by simp) hlast'
      by_cases h : c = sep
      · rw [if_pos h]
        cases hs : splitOnChar sep (c' :: cs') with
        | nil => exact absurd hs (splitOnChar_ne_nil sep _)
        | cons l ls =>
          rw [hs] at ihr
          rw [List.getLast?_cons_cons]
          exact ihr
      · rw [if_neg h]
        cases hs : splitOnChar sep (c' :: cs') with
        | nil => exact absurd hs (splitOnChar_ne_nil sep _)
        | cons l ls =>
          rw [hs] at ihr
          cases ls with
          | nil => simp
          | cons l₂ ls₂ =>
            rw [List.getLast?_cons_cons]
            rw [List.getLast?_cons_cons] at ihr
            exact ihr

theorem stripCr_eq_self (l : List Char) (h : ∀ c ∈ l, c ≠ '\r') : stripCr l = l := by
  rw [stripCr]
  cases hg : l.getLast? with
  | none => rfl
  | some d =>
    have hl : l.dropLast ++ [d] = l := List.dropLast_append_getLast? d hg
    have hd : d ∈ l := by rw [← hl]; simp
    show (if d = '\r' then l.dropLast else l) = l
    rw [if_neg (h d hd)]

theorem rustLines_eq (cs : List Char) (hne : cs ≠ []) (hlast : cs.getLast? ≠ some '\n')
    (hnocr : ∀ c ∈ cs, c ≠ '\r') : rustLines cs = splitOnChar '\n' cs := by
  simp only [rustLines]
  rw [if_neg (by simpa using splitOnChar_getLast_ne '\n' cs hne hlast)]
  exact map_eq_self_of_mem _ _ (fun l hl =>
    stripCr_eq_self l (fun c hc => hnocr c (mem_of_mem_splitOnChar '\n' cs l hl c hc)))

theorem rustLinesJoin_eq (cs : List Char) (hne : cs ≠ []) (hlast : cs.getLast? ≠ some '\n')
    (hnocr : ∀ c ∈ cs, c ≠ '\r') : rustLinesJoin cs = cs ++ ['\n'] := by
  rw [rustLinesJoin, rustLines_eq cs hne hlast hnocr, splitOnChar_flatten]

/-! ### The serializer never emits a carriage return -/

theorem hexDigitChar_ne_cr (n : Nat) (h : n < 16) : hexDigitChar n ≠ '\r' := by
  intro he
  have h13 : (hexDigitChar n).toNat = 13 := by rw [he]; rfl
  rw [hexDigitChar] at h13
  by_cases h10 : n < 10
  · rw [if_pos h10, toNat_ofNat_valid _ (by omega)] at h13; omega
  · rw [if_neg h10, toNat_ofNat_valid _ (by omega)] at h13; omega

theorem escChar_no_cr (c : Char) : ∀ d ∈ escChar c, d ≠ '\r' := by
  intro d hd
  rw [escChar] at hd
  split_ifs at hd with h1 h2 h3 h4 h5 h6 h7 h8
  · simp at hd; rcases hd with rfl | rfl <;> decide
  · simp at hd; rcases hd with rfl | rfl <;> decide
  · simp at hd; rcases hd with rfl | rfl <;> decide
  · simp at hd; rcases hd with rfl | rfl <;> decide
  · simp at hd; rcases hd with rfl | rfl <;> decide
  · simp at hd; rcases hd with rfl | rfl <;> decide
  · simp at hd; rcases hd with rfl | rfl <;> decide
  · rcases List.mem_cons.mp hd with rfl | hd
    · decide
    rcases List.mem_cons.mp hd with rfl | hd
    · decide
    rcases List.mem_cons.mp hd with rfl | hd
    · decide
    rcases List.mem_cons.mp hd with rfl | hd
    · decide
    rcases List.mem_cons.mp hd with rfl | hd
    · exact hexDigitChar_ne_cr (c.toNat / 16) (by omega)
    rcases List.mem_cons.mp hd with rfl | hd
    · exact hexDigitChar_ne_cr (c.toNat % 16) (by omega)
    · simp at hd
  · simp at hd
    subst hd
    intro he
    rw [he] at h8
    exact h8 (by decide)

theorem quoteChars_no_cr (s : String) : ∀ d ∈ quoteChars s, d ≠ '\r' := by
  intro d hd
  rw [quoteChars] at hd
  rcases List.mem_cons.mp hd with rfl | hd'
  · decide
  rcases List.mem_append.mp hd' with h1 | h1
  · rw [escBody] at h1
    rcases List.mem_flatten.mp h1 with ⟨l, hl, hdl⟩
    rcases List.mem_map.mp hl with ⟨c, _, rfl⟩
    exact escChar_no_cr c d hdl
  · simp at h1; subst h1; decide

theorem digit_ne_cr (c : Char) (h : isDigitChar c = true) : c ≠ '\r' := by
  intro he
  rw [he] at h
  exact absurd h (by decide)

theorem intToChars_no_cr (i : Int) : ∀ d ∈ intToChars i, d ≠ '\r' := by
  intro d hd
  rw [intToChars] at hd
  split_ifs at hd
  · rcases List.mem_cons.mp hd with rfl | hd'
    · decide
    · exact digit_ne_cr d (natToChars_all_digits _ d hd')
  · exact digit_ne_cr d (natToChars_all_digits _ d hd)

theorem nlIndent_no_cr (k : Nat) : ∀ d ∈ nlIndent k, d ≠ '\r' := by
  intro d hd
  rw [nlIndent] at hd
  rcases List.mem_cons.mp hd with rfl | hd'
  · decide
  · rw [List.eq_of_mem_replicate hd']; decide

theorem serArrRest_no_cr (k : Nat) (vs : List Value)
    (ihv : ∀ v ∈ vs, ∀ k' d, d ∈ serValue k' v → d ≠ '\r') :
    ∀ d ∈ serArrRest k vs, d ≠ '\r' := by
  induction vs with
  | nil => intro d hd; rw [serArrRest] at hd; simp at hd
  | cons v vs ihl =>
    intro d hd
    rw [serArrRest] at hd
    rcases List.mem_cons.mp hd with rfl | hd'
    · decide
    rcases List.mem_append.mp hd' with h1 | h1
    · rcases List.mem_append.mp h1 with h2 | h2
      · exact nlIndent_no_cr k d h2
      · exact ihv v (List.mem_cons_self _ _) k d h2
    · exact ihl (fun u hu => ihv u (List.mem_cons_of_mem _ hu)) d h1

theorem serEntry_no_cr (k : Nat) (e : String × Value)
    (ihv : ∀ k' d, d ∈ serValue k' e.2 → d ≠ '\r') :
    ∀ d ∈ serEntry k e, d ≠ '\r' := by
  obtain ⟨key, v⟩ := e
  intro d hd
  rw [serEntry] at hd
  rcases List.mem_append.mp hd with h1 | h1
  · exact quoteChars_no_cr key d h1
  rcases List.mem_cons.mp h1 with rfl | h2
  · decide
  rcases List.mem_cons.mp h2 with rfl | h3
  · decide
  · exact ihv k d h3

theorem serObjRest_no_cr (k : Nat) (es : List (String × Value))
    (ihv : ∀ e ∈ es, ∀ k' d, d ∈ serValue k' e.2 → d ≠ '\r') :
    ∀ d ∈ serObjRest k es, d ≠ '\r' := by
  induction es with
  | nil => intro d hd; rw [serObjRest] at hd; simp at hd
  | cons e es ihl =>
    intro d hd
    rw [serObjRest] at hd
    rcases List.mem_cons.mp hd with rfl | hd'
    · decide
    rcases List.mem_append.mp hd' with h1 | h1
    · rcases List.mem_append.mp h1 with h2 | h2
      · exact nlIndent_no_cr k d h2
      · exact serEntry_no_cr k e (ihv e (List.mem_cons_self _ _)) d h2
    · exact ihl (fun u hu => ihv u (List.mem_cons_of_mem _ hu)) d h1

theorem serValue_no_cr_N : ∀ N : Nat, ∀ v : Value, vsize v ≤ N →
    ∀ k d, d ∈ serValue k v → d ≠ '\r' := by
  intro N
  induction N with
  | zero =>
    intro v hv
    exact absurd hv (by have := vsize_pos v; omega)
  | succ N ih =>
    intro v hv k d hd
    cases v with
    | null =>
      rw [serValue] at hd
      intro he; subst he; exact absurd hd (by decide)
    | bool b =>
      cases b with
      | false =>
        rw [serValue] at hd
        intro he; subst he; exact absurd hd (by decide)
      | true =>
        rw [serValue] at hd
        intro he; subst he; exact absurd hd (by decide)
    | num i =>
      rw [serValue] at hd
      exact intToChars_no_cr i d hd
    | str s =>
      rw [serValue] at hd
      exact quoteChars_no_cr s d hd
    | arr l =>
      have hmem : ∀ v' ∈ l, ∀ k' d', d' ∈ serValue k' v' → d' ≠ '\r' := by
        intro v' hv' k' d' hd'
        have hb : vsize v' ≤ N := by
          have h1 := vsizeL_mem l v' hv'
          rw [vsize] at hv
          omega
        exact ih v' hb k' d' hd'
      cases l with
      | nil =>
        rw [serValue] at hd
        intro he; subst he; exact absurd hd (by decide)
      | cons v vs =>
        rw [serValue] at hd
        rcases List.mem_cons.mp hd with rfl | hd'
        · decide
        rcases List.mem_append.mp hd' with h1 | h1
        · rcases List.mem_append.mp h1 with h2 | h2
          · rcases List.mem_append.mp h2 with h3 | h3
            · rcases List.mem_append.mp h3 with h4 | h4
              · exact nlIndent_no_cr _ d h4
              · exact hmem v (List.mem_cons_self _ _) _ d h4
            · exact serArrRest_no_cr _ vs
                (fun u hu => hmem u (List.mem_cons_of_mem _ hu)) d h3
          · exact nlIndent_no_cr _ d h2
        · simp at h1; subst h1; decide
    | obj es =>
      have hmem : ∀ e ∈ es, ∀ k' d', d' ∈ serValue k' e.2 → d' ≠ '\r' := by
        intro e he k' d' hd'
        have hb : vsize e.2 ≤ N := by
          have h1 := vsizeO_mem es e.1 e.2 he
          rw [vsize] at hv
          omega
        exact ih e.2 hb k' d' hd'
      cases es with
      | nil =>
        rw [serValue] at hd
        intro he; subst he; exact absurd hd (by decide)
      | cons e es' =>
        rw [serValue] at hd
        rcases List.mem_cons.mp hd with rfl | hd'
        · decide
        rcases List.mem_append.mp hd' with h1 | h1
        · rcases List.mem_append.mp h1 with h2 | h2
          · rcases List.mem_append.mp h2 with h3 | h3
            · rcases List.mem_append.mp h3 with h4 | h4
              · exact nlIndent_no_cr _ d h4
              · exact serEntry_no_cr _ e (hmem e (List.mem_cons_self _ _)) d h4
            · exact serObjRest_no_cr _ es'
                (fun u hu => hmem u (List.mem_cons_of_mem _ hu)) d h3
          · exact nlIndent_no_cr _ d h2
        · simp at h1
          subst h1
          decide

theorem serValue_no_cr (v : Value) (k : Nat) : ∀ d ∈ serValue k v, d ≠ '\r' :=
  fun d hd => serValue_no_cr_N (vsize v) v (Nat.le_refl _) k d hd

/-! ### Parsing a saved file back -/

theorem serValue_obj_getLast (m : List (String × Value)) (k : Nat) :
    (serValue k (.obj m)).getLast? = some rbrace := by
  cases m with
  | nil => rfl
  | cons e es =>
    rw [serValue, ← List.cons_append]
    exact List.getLast?_concat _

theorem serValue_obj_ne_nil (m : List (String × Value)) (k : Nat) :
    serValue k (.obj m) ≠ [] := by
  intro h
  have := serValue_obj_getLast m k
  rw [h] at this
  cases this

theorem lbrace_mem_serValue_obj (m : List (String × Value)) (k : Nat) :
    lbrace ∈ serValue k (.obj m) := by
  cases m with
  | nil => rw [serValue]; exact List.mem_cons_self _ _
  | cons e es => rw [serValue]; exact List.mem_cons_self _ _

theorem rustLinesJoin_serializeMap (m : List (String × Value)) :
    rustLinesJoin (serializeMap m) = serializeMap m ++ ['\n'] := by
  refine rustLinesJoin_eq _ (serValue_obj_ne_nil m 0) ?_ (serValue_no_cr (.obj m) 0)
  rw [serializeMap, serValue_obj_getLast m 0]
  intro h
  exact absurd (Option.some.inj h) (by decide)

theorem parseJsonObject_serializeMap (m : List (String × Value)) :
    parseJsonObject (serializeMap m ++ ['\n']) = some m := by
  have hnd : headNotDigit ['\n'] := by
    intro c hc
    rw [show (['\n'] : List Char).head? = some '\n' from rfl] at hc
    rw [← Option.some.inj hc]
    rfl
  have h := serValue_rt (.obj m) 0 ['\n']
    (2 * ((serValue 0 (.obj m) ++ ['\n']).length) + 2) hnd (Nat.le_refl _)
  rw [parseJsonObject, parseJson]
  simp only [serializeMap]
  rw [h]
  rfl

theorem trim_serializeMap_line_ne_nil (m : List (String × Value)) :
    trimChars (serializeMap m ++ ['\n']) ≠ [] := by
  intro h
  have hall := (trimChars_eq_nil_iff _).mp h
  have hlb : lbrace ∈ serializeMap m ++ ['\n'] :=
    List.mem_append.mpr (Or.inl (lbrace_mem_serValue_obj m 0))
  have := hall lbrace hlb
  exact absurd this (by decide)

/-- C5: round trip.  For every store state (in particular, the state reached
by any sequence of inserts, updates and deletes) with a persistence path,
`save()` succeeds and a subsequent `reload()` (or a fresh load from the same
path, whatever the loader's prior in-memory state `db2`) yields exactly the
key/value set that was in memory at the moment of the save. -/
theorem C5_round_trip (db db2 : InMemoryDB) (path : String) (w : World)
    (hp : db.persistence_file = some path) (hp2 : db2.persistence_file = some path) :
    (save db true w).2 = .ok () ∧
    load_from_file db2 (save db true w).1.fs = .ok { db2 with storage := db.storage } := by
  have hsave : save db true w =
      (wRename (save_stage_temp db path w) (with_extension path "tmp") path, .ok ()) := by
    simp [save, save_to_file, hp]
  refine ⟨by rw [hsave], ?_⟩
  rw [hsave]
  have htmp : fsLookup (save_stage_temp db path w).fs (with_extension path "tmp") =
      some ⟨serializeMap db.storage, (save_stage_backup db path w).now⟩ :=
    fsLookup_set_self _ _ _
  have hren : fsLookup
      (wRename (save_stage_temp db path w) (with_extension path "tmp") path).fs path =
      some ⟨serializeMap db.storage, (save_stage_backup db path w).now⟩ := by
    show fsLookup
      (fsRename (save_stage_temp db path w).fs (with_extension path "tmp") path) path = _
    rw [fsRename, htmp]
    exact fsLookup_set_self _ _ _
  simp only [load_from_file, hp2, hren]
  rw [rustLinesJoin_serializeMap]
  rw [if_neg (trim_serializeMap_line_ne_nil db.storage)]
  rw [parseJsonObject_serializeMap]

/-- Witness for C5 at a concrete store, loader and world. -/
theorem C5_witness :
    ((⟨[("k", .num 1)], some "db.json", true, false⟩ : InMemoryDB).persistence_file =
        some "db.json") ∧
    ((⟨[], some "db.json", true, false⟩ : InMemoryDB).persistence_file = some "db.json") ∧
    (save ⟨[("k", .num 1)], some "db.json", true, false⟩ true ⟨⟨[]⟩, 5⟩).2 = .ok () ∧
    load_from_file ⟨[], some "db.json", true, false⟩
      (save ⟨[("k", .num 1)], some "db.json", true, false⟩ true ⟨⟨[]⟩, 5⟩).1.fs =
      .ok ⟨[("k", .num 1)], some "db.json", true, false⟩ := by
  refine ⟨rfl, rfl, ?_⟩
  exact C5_round_trip ⟨[("k", .num 1)], some "db.json", true, false⟩
    ⟨[], some "db.json", true, false⟩ "db.json" ⟨⟨[]⟩, 5⟩ rfl rfl

/-! ### Uniqueness of paths in the file system and removal -/

theorem mem_keys_fsSetAux (p x : String) (e : FileEntry) (l : List (String × FileEntry))
    (h : x ∈ (fsSetAux p e l).map Prod.fst) : x ∈ l.map Prod.fst ∨ x = p := by
  induction l with
  | nil =>
    simp [fsSetAux] at h
    exact Or.inr h
  | cons kv rest ih =>
    rw [fsSetAux] at h
    by_cases hk : kv.1 = p
    · rw [if_pos hk] at h
      rw [List.map_cons, List.mem_cons] at h
      rcases h with h | h
      · exact Or.inr h
      · exact Or.inl (List.mem_cons_of_mem _ h)
    · rw [if_neg hk] at h
      rw [List.map_cons, List.mem_cons] at h
      rcases h with h | h
      · exact Or.inl (h ▸ List.mem_cons_self _ _)
      · rcases ih h with h2 | h2
        · exact Or.inl (List.mem_cons_of_mem _ h2)
        · exact Or.inr h2

theorem fsSetAux_keys_nodup (p : String) (e : FileEntry) (l : List (String × FileEntry))
    (h : (l.map Prod.fst).Nodup) : ((fsSetAux p e l).map Prod.fst).Nodup := by
  induction l with
  | nil => simp [fsSetAux]
  | cons kv rest ih =>
    rw [List.map_cons, List.nodup_cons] at h
    rw [fsSetAux]
    by_cases hk : kv.1 = p
    · rw [if_pos hk, List.map_cons, List.nodup_cons]
      exact ⟨hk ▸ h.1, h.2⟩
    · rw [if_neg hk, List.map_cons, List.nodup_cons]
      refine ⟨?_, ih h.2⟩
      intro hmem
      rcases mem_keys_fsSetAux p kv.1 e rest hmem with h2 | h2
      · exact h.1 h2
      · exact hk h2

theorem fsLookupAux_not_mem (l : List (String × FileEntry)) (x : String)
    (h : x ∉ l.map Prod.fst) : fsLookupAux l x = none := by
  induction l with
  | nil => rfl
  | cons kv rest ih =>
    rw [List.map_cons] at h
    rw [fsLookupAux, if_neg (fun he => h (by rw [he]; exact List.mem_cons_self _ _)),
      ih (fun hm => h (List.mem_cons_of_mem _ hm))]

theorem fsLookupAux_remove_self (l : List (String × FileEntry)) (p : String)
    (h : (l.map Prod.fst).Nodup) : fsLookupAux (fsRemoveAux p l) p = none := by
  induction l with
  | nil => rfl
  | cons kv rest ih =>
    rw [List.map_cons, List.nodup_cons] at h
    rw [fsRemoveAux]
    by_cases hk : kv.1 = p
    · rw [if_pos hk]
      exact fsLookupAux_not_mem rest p (hk ▸ h.1)
    · rw [if_neg hk, fsLookupAux, if_neg hk]
      exact ih h.2

theorem create_backup_nodup (db : InMemoryDB) (path : String) (w : World)
    (h : (w.fs.files.map Prod.fst).Nodup) :
    (((create_backup db path w).fs.files).map Prod.fst).Nodup := by
  unfold create_backup
  cases hb : db.backup_enabled with
  | false => rw [if_pos rfl]; exact h
  | true =>
    rw [if_neg (by simp)]
    cases he : fsLookup w.fs path with
    | none => exact h
    | some e => exact fsSetAux_keys_nodup _ _ _ h

theorem create_backup_content (db : InMemoryDB) (path : String) (w : World) :
    (fsLookup (create_backup db path w).fs path).map FileEntry.content =
      (fsLookup w.fs path).map FileEntry.content := by
  unfold create_backup
  cases hb : db.backup_enabled with
  | false => rw [if_pos rfl]
  | true =>
    rw [if_neg (by simp)]
    cases he : fsLookup w.fs path with
    | none =>
      show (fsLookup w.fs path).map FileEntry.content = _
      rw [he]
    | some e =>
      by_cases hq : with_extension path ("backup." ++ natToString w.now) = path
      · show (fsLookup (fsSet w.fs _ _) path).map _ = _
        rw [hq, fsLookup_set_self]
        rfl
      · show (fsLookup (fsSet w.fs _ _) path).map _ = _
        rw [fsLookup_set_ne _ _ _ _ (Ne.symm hq), he]

/-- C4: atomicity of `save_to_file`.  The full serialization is staged in the
`.tmp` sibling; a successful rename leaves the real path holding exactly the
well-formed full serialization (it parses back to the saved storage) with the
temporary file gone, and a failed rename surfaces the error, leaves the real
path's bytes exactly as they were before the save, and still deletes the
temporary file — so a partially written file is never observable at the real
path. -/
theorem C4_save_atomicity (db : InMemoryDB) (path : String) (w : World)
    (hp : db.persistence_file = some path)
    (htmp : with_extension path "tmp" ≠ path)
    (hnod : (w.fs.files.map Prod.fst).Nodup) :
    ((save_to_file db true w).2 = .ok () ∧
      (∃ e, fsLookup (save_to_file db true w).1.fs path = some e ∧
        e.content = serializeMap db.storage ∧
        parseJsonObject (rustLinesJoin e.content) = some db.storage) ∧
      fsLookup (save_to_file db true w).1.fs (with_extension path "tmp") = none) ∧
    ((save_to_file db false w).2 = .error .renameFailed ∧
      (fsLookup (save_to_file db false w).1.fs path).map FileEntry.content =
        (fsLookup w.fs path).map FileEntry.content ∧
      fsLookup (save_to_file db false w).1.fs (with_extension path "tmp") = none) := by
  have hok : save_to_file db true w =
      (wRename (save_stage_temp db path w) (with_extension path "tmp") path, .ok ()) := by
    simp [save_to_file, hp]
  have hfail : save_to_file db false w =
      (wRemove (save_stage_temp db path w) (with_extension path "tmp"),
        .error .renameFailed) := by
    simp [save_to_file, hp]
  have htmpe : fsLookup (save_stage_temp db path w).fs (with_extension path "tmp") =
      some ⟨serializeMap db.storage, (save_stage_backup db path w).now⟩ :=
    fsLookup_set_self _ _ _
  have hnod2 : (((save_stage_temp db path w).fs.files).map Prod.fst).Nodup :=
    fsSetAux_keys_nodup _ _ _ (create_backup_nodup db path w hnod)
  refine ⟨⟨by rw [hok], ?_, ?_⟩, by rw [hfail], ?_, ?_⟩
  · rw [hok]
    refine ⟨⟨serializeMap db.storage, (save_stage_backup db path w).now⟩, ?_, rfl, ?_⟩
    · show fsLookup
        (fsRename (save_stage_temp db path w).fs (with_extension path "tmp") path) path = _
      rw [fsRename, htmpe]
      exact fsLookup_set_self _ _ _
    · rw [rustLinesJoin_serializeMap, parseJsonObject_serializeMap]
  · rw [hok]
    show fsLookup
      (fsRename (save_stage_temp db path w).fs (with_extension path "tmp") path)
      (with_extension path "tmp") = none
    rw [fsRename, htmpe]
    rw [fsLookup_set_ne _ _ _ _ htmp]
    exact fsLookupAux_remove_self _ _ hnod2
  · rw [hfail]
    show (fsLookup (fsRemove (save_stage_temp db path w).fs (with_extension path "tmp"))
      path).map FileEntry.content = _
    rw [fsLookup_remove_ne _ _ _ (Ne.symm htmp)]
    show (fsLookup (fsSet (save_stage_backup db path w).fs (with_extension path "tmp") _)
      path).map FileEntry.content = _
    rw [fsLookup_set_ne _ _ _ _ (Ne.symm htmp)]
    exact create_backup_content db path w
  · rw [hfail]
    show fsLookup (fsRemove (save_stage_temp db path w).fs (with_extension path "tmp"))
      (with_extension path "tmp") = none
    exact fsLookupAux_remove_self _ _ hnod2

/-- Witness for C4 at a concrete store and world. -/
theorem C4_witness :
    ((⟨[("a", .num 2)], some "db.json", true, false⟩ : InMemoryDB).persistence_file =
        some "db.json") ∧
    with_extension "db.json" "tmp" ≠ "db.json" ∧
    ((FS.files ⟨[("db.json", ⟨['x'], 1⟩)]⟩).map Prod.fst).Nodup ∧
    (((save_to_file ⟨[("a", .num 2)], some "db.json", true, false⟩ true
        ⟨⟨[("db.json", ⟨['x'], 1⟩)]⟩, 5⟩).2 = .ok ()) ∧
      (∃ e, fsLookup (save_to_file ⟨[("a", .num 2)], some "db.json", true, false⟩ true
          ⟨⟨[("db.json", ⟨['x'], 1⟩)]⟩, 5⟩).1.fs "db.json" = some e ∧
        e.content = serializeMap [("a", .num 2)] ∧
        parseJsonObject (rustLinesJoin e.content) = some [("a", .num 2)]) ∧
      fsLookup (save_to_file ⟨[("a", .num 2)], some "db.json", true, false⟩ true
        ⟨⟨[("db.json", ⟨['x'], 1⟩)]⟩, 5⟩).1.fs (with_extension "db.json" "tmp") = none) ∧
    (((save_to_file ⟨[("a", .num 2)], some "db.json", true, false⟩ false
        ⟨⟨[("db.json", ⟨['x'], 1⟩)]⟩, 5⟩).2 = .error .renameFailed) ∧
      (fsLookup (save_to_file ⟨[("a", .num 2)], some "db.json", true, false⟩ false
          ⟨⟨[("db.json", ⟨['x'], 1⟩)]⟩, 5⟩).1.fs "db.json").map FileEntry.content =
        (fsLookup (⟨[("db.json", ⟨['x'], 1⟩)]⟩ : FS) "db.json").map FileEntry.content ∧
      fsLookup (save_to_file ⟨[("a", .num 2)], some "db.json", true, false⟩ false
        ⟨⟨[("db.json", ⟨['x'], 1⟩)]⟩, 5⟩).1.fs (with_extension "db.json" "tmp") = none) := by
  refine ⟨rfl, by decide, by decide, ?_⟩
  exact C4_save_atomicity ⟨[("a", .num 2)], some "db.json", true, false⟩ "db.json"
    ⟨⟨[("db.json", ⟨['x'], 1⟩)]⟩, 5⟩ rfl (by decide) (by decide)

/-! ### The repair scan: ordering and adoption -/

theorem insertByMtime_perm (fs : FS) (dir x : String) (l : List String) :
    (insertByMtime fs dir x l).Perm (x :: l) := by
  induction l with
  | nil => exact List.Perm.refl _
  | cons y ys ih =>
    rw [insertByMtime]
    by_cases h : mtimeKey fs dir x ≤ mtimeKey fs dir y
    · rw [if_pos h]
    · rw [if_neg h]
      exact (ih.cons y).trans (List.Perm.swap x y ys)

theorem sortByMtime_perm (fs : FS) (dir : String) (l : List String) :
    (sortByMtime fs dir l).Perm l := by
  induction l with
  | nil => exact List.Perm.refl _
  | cons x xs ih =>
    rw [sortByMtime]
    exact (insertByMtime_perm fs dir x _).trans (ih.cons x)

theorem insertByMtime_sorted (fs : FS) (dir x : String) (l : List String)
    (h : List.Pairwise (fun a b => mtimeKey fs dir a ≤ mtimeKey fs dir b) l) :
    List.Pairwise (fun a b => mtimeKey fs dir a ≤ mtimeKey fs dir b)
      (insertByMtime fs dir x l) := by
  induction l with
  | nil => simp [insertByMtime]
  | cons y ys ih =>
    rw [insertByMtime]
    rw [List.pairwise_cons] at h
    by_cases hxy : mtimeKey fs dir x ≤ mtimeKey fs dir y
    · rw [if_pos hxy, List.pairwise_cons]
      refine ⟨?_, List.pairwise_cons.mpr h⟩
      intro b hb
      rcases List.mem_cons.mp hb with rfl | hb'
      · exact hxy
      · exact le_trans hxy (h.1 b hb')
    · rw [if_neg hxy, List.pairwise_cons]
      refine ⟨?_, ih h.2⟩
      intro b hb
      rcases List.mem_cons.mp ((insertByMtime_perm fs dir x ys).mem_iff.mp hb) with rfl | hb'
      · omega
      · exact h.1 b hb'

theorem sortByMtime_sorted (fs : FS) (dir : String) (l : List String) :
    List.Pairwise (fun a b => mtimeKey fs dir a ≤ mtimeKey fs dir b)
      (sortByMtime fs dir l) := by
  induction l with
  | nil => exact List.Pairwise.nil
  | cons x xs ih =>
    rw [sortByMtime]
    exact insertByMtime_sorted fs dir x _ ih

theorem repairLoop_eq (db : InMemoryDB) (w : World) (dir : String) (ns : List String) :
    repairLoop db w dir ns =
      (match firstParsedBackup w dir ns with
       | some nd =>
         ({ db with storage := nd.2 }, (save_to_file { db with storage := nd.2 } true w).1,
           (save_to_file { db with storage := nd.2 } true w).2)
       | none =>
         ({ db with storage := [] }, (save_to_file { db with storage := [] } true w).1,
           (save_to_file { db with storage := [] } true w).2)) := by
  induction ns with
  | nil => rfl
  | cons n rest ih =>
    cases he : fsLookup w.fs (joinPath dir n) with
    | none =>
      simp only [repairLoop, firstParsedBackup, he]
      exact ih
    | some e =>
      cases hpj : parseJsonObject e.content with
      | none =>
        simp only [repairLoop, firstParsedBackup, he, hpj]
        exact ih
      | some data =>
        simp [repairLoop, firstParsedBackup, he, hpj]

/-- C2 (amended): `repair_file` scans the persistence file's directory for
names that merely *start with* `<stem>.backup.` (no timestamp validation),
newest first by modification time, and adopts the first candidate whose
bytes parse as a JSON object, saving it as the new canonical file; when no
candidate parses, the store becomes empty and that empty state is
persisted.  No integrity record is consulted (adoption depends only on
parseability) and, `repair_file` receiving no index, no index is rebuilt. -/
theorem C2_repair_algorithm (db : InMemoryDB) (w : World) (path : String)
    (names : List String) (hp : db.persistence_file = some path)
    (hrd : readDir w.fs (if path = "" then "." else dirOf path) = .ok names) :
    ((sortByMtime w.fs (if path = "" then "." else dirOf path)
        (names.filter
          (fun n => (stemOf path ++ ".backup.").data.isPrefixOf n.data))).reverse).Perm
      (names.filter (fun n => (stemOf path ++ ".backup.").data.isPrefixOf n.data)) ∧
    List.Pairwise
      (fun a b => mtimeKey w.fs (if path = "" then "." else dirOf path) b ≤
        mtimeKey w.fs (if path = "" then "." else dirOf path) a)
      ((sortByMtime w.fs (if path = "" then "." else dirOf path)
        (names.filter
          (fun n => (stemOf path ++ ".backup.").data.isPrefixOf n.data))).reverse) ∧
    repair_file db w =
      (match firstParsedBackup w (if path = "" then "." else dirOf path)
          ((sortByMtime w.fs (if path = "" then "." else dirOf path)
            (names.filter
              (fun n => (stemOf path ++ ".backup.").data.isPrefixOf n.data))).reverse) with
       | some nd =>
         ({ db with storage := nd.2 }, (save_to_file { db with storage := nd.2 } true w).1,
           (save_to_file { db with storage := nd.2 } true w).2)
       | none =>
         ({ db with storage := [] }, (save_to_file { db with storage := [] } true w).1,
           (save_to_file { db with storage := [] } true w).2)) := by
  refine ⟨(List.reverse_perm _).trans (sortByMtime_perm _ _ _),
    List.pairwise_reverse.mpr (sortByMtime_sorted _ _ _), ?_⟩
  obtain ⟨st, pf, sa, be⟩ := db
  have hp' : pf = some path := hp
  subst hp'
  simp only [repair_file, hrd]
  exact repairLoop_eq ⟨st, some path, sa, be⟩ w _ _

/-- Witness for the amended repair characterisation at a concrete directory
of backups. -/
theorem C2_witness :
    ((⟨[], some "stpers/db.json", true, false⟩ : InMemoryDB).persistence_file =
        some "stpers/db.json") ∧
    readDir (⟨[("stpers/db.json", ⟨['x', 'x'], 3⟩),
        ("stpers/db.backup.7", ⟨serializeMap [("a", Value.num 1)], 7⟩),
        ("hashes/db.backup.7.hash", ⟨"deadbeef".data, 7⟩)]⟩ : FS)
        (if "stpers/db.json" = "" then "." else dirOf "stpers/db.json") =
      .ok ["db.json", "db.backup.7"] ∧
    (((sortByMtime (⟨[("stpers/db.json", ⟨['x', 'x'], 3⟩),
        ("stpers/db.backup.7", ⟨serializeMap [("a", Value.num 1)], 7⟩),
        ("hashes/db.backup.7.hash", ⟨"deadbeef".data, 7⟩)]⟩ : FS)
        (if "stpers/db.json" = "" then "." else dirOf "stpers/db.json")
        ((["db.json", "db.backup.7"]).filter
          (fun n =>
            (stemOf "stpers/db.json" ++ ".backup.").data.isPrefixOf n.data))).reverse).Perm
      ((["db.json", "db.backup.7"]).filter
        (fun n => (stemOf "stpers/db.json" ++ ".backup.").data.isPrefixOf n.data)) ∧
    List.Pairwise
      (fun a b =>
        mtimeKey (⟨[("stpers/db.json", ⟨['x', 'x'], 3⟩),
            ("stpers/db.backup.7", ⟨serializeMap [("a", Value.num 1)], 7⟩),
            ("hashes/db.backup.7.hash", ⟨"deadbeef".data, 7⟩)]⟩ : FS)
          (if "stpers/db.json" = "" then "." else dirOf "stpers/db.json") b ≤
        mtimeKey (⟨[("stpers/db.json", ⟨['x', 'x'], 3⟩),
            ("stpers/db.backup.7", ⟨serializeMap [("a", Value.num 1)], 7⟩),
            ("hashes/db.backup.7.hash", ⟨"deadbeef".data, 7⟩)]⟩ : FS)
          (if "stpers/db.json" = "" then "." else dirOf "stpers/db.json") a)
      ((sortByMtime (⟨[("stpers/db.json", ⟨['x', 'x'], 3⟩),
          ("stpers/db.backup.7", ⟨serializeMap [("a", Value.num 1)], 7⟩),
          ("hashes/db.backup.7.hash", ⟨"deadbeef".data, 7⟩)]⟩ : FS)
        (if "stpers/db.json" = "" then "." else dirOf "stpers/db.json")
        ((["db.json", "db.backup.7"]).filter
          (fun n =>
            (stemOf "stpers/db.json" ++ ".backup.").data.isPrefixOf n.data))).reverse) ∧
    repair_file ⟨[], some "stpers/db.json", true, false⟩
        ⟨⟨[("stpers/db.json", ⟨['x', 'x'], 3⟩),
          ("stpers/db.backup.7", ⟨serializeMap [("a", Value.num 1)], 7⟩),
          ("hashes/db.backup.7.hash", ⟨"deadbeef".data, 7⟩)]⟩, 9⟩ =
      (match firstParsedBackup
          ⟨⟨[("stpers/db.json", ⟨['x', 'x'], 3⟩),
            ("stpers/db.backup.7", ⟨serializeMap [("a", Value.num 1)], 7⟩),
            ("hashes/db.backup.7.hash", ⟨"deadbeef".data, 7⟩)]⟩, 9⟩
          (if "stpers/db.json" = "" then "." else dirOf "stpers/db.json")
          ((sortByMtime (⟨[("stpers/db.json", ⟨['x', 'x'], 3⟩),
              ("stpers/db.backup.7", ⟨serializeMap [("a", Value.num 1)], 7⟩),
              ("hashes/db.backup.7.hash", ⟨"deadbeef".data, 7⟩)]⟩ : FS)
            (if "stpers/db.json" = "" then "." else dirOf "stpers/db.json")
            ((["db.json", "db.backup.7"]).filter
              (fun n =>
                (stemOf "stpers/db.json" ++ ".backup.").data.isPrefixOf n.data))).reverse) with
       | some nd =>
         (({ (⟨[], some "stpers/db.json", true, false⟩ : InMemoryDB) with
              storage := nd.2 } : InMemoryDB),
           (save_to_file ({ (⟨[], some "stpers/db.json", true, false⟩ : InMemoryDB) with
              storage := nd.2 } : InMemoryDB) true
            ⟨⟨[("stpers/db.json", ⟨['x', 'x'], 3⟩),
              ("stpers/db.backup.7", ⟨serializeMap [("a", Value.num 1)], 7⟩),
              ("hashes/db.backup.7.hash", ⟨"deadbeef".data, 7⟩)]⟩, 9⟩).1,
           (save_to_file ({ (⟨[], some "stpers/db.json", true, false⟩ : InMemoryDB) with
              storage := nd.2 } : InMemoryDB) true
            ⟨⟨[("stpers/db.json", ⟨['x', 'x'], 3⟩),
              ("stpers/db.backup.7", ⟨serializeMap [("a", Value.num 1)], 7⟩),
              ("hashes/db.backup.7.hash", ⟨"deadbeef".data, 7⟩)]⟩, 9⟩).2)
       | none =>
         (({ (⟨[], some "stpers/db.json", true, false⟩ : InMemoryDB) with
              storage := [] } : InMemoryDB),
           (save_to_file ({ (⟨[], some "stpers/db.json", true, false⟩ : InMemoryDB) with
              storage := [] } : InMemoryDB) true
            ⟨⟨[("stpers/db.json", ⟨['x', 'x'], 3⟩),
              ("stpers/db.backup.7", ⟨serializeMap [("a", Value.num 1)], 7⟩),
              ("hashes/db.backup.7.hash", ⟨"deadbeef".data, 7⟩)]⟩, 9⟩).1,
           (save_to_file ({ (⟨[], some "stpers/db.json", true, false⟩ : InMemoryDB) with
              storage := [] } : InMemoryDB) true
            ⟨⟨[("stpers/db.json", ⟨['x', 'x'], 3⟩),
              ("stpers/db.backup.7", ⟨serializeMap [("a", Value.num 1)], 7⟩),
              ("hashes/db.backup.7.hash", ⟨"deadbeef".data, 7⟩)]⟩, 9⟩).2))) := by
  refine ⟨rfl, rfl, ?_⟩
  exact C2_repair_algorithm ⟨[], some "stpers/db.json", true, false⟩
    ⟨⟨[("stpers/db.json", ⟨['x', 'x'], 3⟩),
      ("stpers/db.backup.7", ⟨serializeMap [("a", Value.num 1)], 7⟩),
      ("hashes/db.backup.7.hash", ⟨"deadbeef".data, 7⟩)]⟩, 9⟩ "stpers/db.json"
    ["db.json", "db.backup.7"] rfl rfl

/-- C2 counterexample: a parseable backup `db.backup.7` sits next to the
corrupt data file, and an integrity record for that specific backup's name
exists at `hashes/db.backup.7.hash` but does NOT match the recomputed hash
of the backup's parsed content.  The claim says such a candidate must be
skipped; `repair_file` adopts it anyway, reports success, and persists it
as the canonical file. -/
theorem C2_counterexample :
    fsLookup (⟨[("stpers/db.json", ⟨['x', 'x'], 3⟩),
        ("stpers/db.backup.7", ⟨serializeMap [("a", Value.num 1)], 7⟩),
        ("hashes/db.backup.7.hash", ⟨"deadbeef".data, 7⟩)]⟩ : FS)
        ("hashes/" ++ "db.backup.7" ++ ".hash") = some ⟨"deadbeef".data, 7⟩ ∧
    create_data_hash [("a", Value.num 1)] ≠ "deadbeef" ∧
    (repair_file ⟨[], some "stpers/db.json", true, false⟩
      ⟨⟨[("stpers/db.json", ⟨['x', 'x'], 3⟩),
        ("stpers/db.backup.7", ⟨serializeMap [("a", Value.num 1)], 7⟩),
        ("hashes/db.backup.7.hash", ⟨"deadbeef".data, 7⟩)]⟩, 9⟩).1.storage =
      [("a", Value.num 1)] ∧
    (repair_file ⟨[], some "stpers/db.json", true, false⟩
      ⟨⟨[("stpers/db.json", ⟨['x', 'x'], 3⟩),
        ("stpers/db.backup.7", ⟨serializeMap [("a", Value.num 1)], 7⟩),
        ("hashes/db.backup.7.hash", ⟨"deadbeef".data, 7⟩)]⟩, 9⟩).2.2 = .ok () ∧
    (fsLookup (repair_file ⟨[], some "stpers/db.json", true, false⟩
      ⟨⟨[("stpers/db.json", ⟨['x', 'x'], 3⟩),
        ("stpers/db.backup.7", ⟨serializeMap [("a", Value.num 1)], 7⟩),
        ("hashes/db.backup.7.hash", ⟨"deadbeef".data, 7⟩)]⟩, 9⟩).2.1.fs
      "stpers/db.json").map FileEntry.content = some (serializeMap [("a", Value.num 1)]) := by
  refine ⟨rfl, by decide, rfl, rfl, rfl⟩

end Redru
